import Mathlib

/-!
Verification development for the RPC/RPQ evaluation pipeline of the
`progetto_tesi` backend.

The Lean definitions below are a shallow embedding of the Python modules
`app/services/rpq_syntax.py`, `app/services/rpq_inclusion.py` and
`app/services/measures.py`.  Python exceptions are modelled with
`Except String`, Python sets with `Finset`, the Neo4j database with an
explicit `Graph` value (a finite set of nodes and labelled edges), and
unbounded loops with a fuel parameter that is always large enough for the
loop bound realised by the source.
-/

namespace RpcSpec

/-- An atomic RPQ symbol, as in `rpq_syntax.Atom`: a pair
`(inv, label)` where `inv = true` means inverse traversal. -/
abbrev Atom : Type := Bool × String

/-- Token kinds produced by the tokenizer in `rpq_syntax._tokenize`. -/
inductive TokKind
  | LPAREN
  | RPAREN
  | OR
  | DOT
  | STAR
  | IDENT
  | EOF
deriving DecidableEq, Repr

/-- A token, as in `rpq_syntax.Token`: a pair kind and value. -/
abbrev Token : Type := TokKind × String

/-- Python `str.isspace` on a single character. -/
def pyIsSpace (c : Char) : Bool := c.isWhitespace

/-- First character of a Python identifier run: `ch.isalpha() or ch == '_'`. -/
def isIdentStart (c : Char) : Bool := c.isAlpha || c = '_'

/-- Continuation character of an identifier run:
`expr[i].isalnum() or expr[i] == '_'`. -/
def isIdentChar (c : Char) : Bool := c.isAlphanum || c = '_'

/-- Python `str.strip` on a character list. -/
def pyStrip (l : List Char) : List Char :=
  ((l.dropWhile pyIsSpace).reverse.dropWhile pyIsSpace).reverse

/-- Python `str.strip` on a string. -/
def pyStripStr (s : String) : String := String.mk (pyStrip s.toList)

/-- Character scan of `rpq_syntax._tokenize`.  The fuel argument only bounds
the loop; every iteration of the Python `while` consumes at least one
character, so fuel equal to the length of the scanned list suffices and the
`fuel = 0` branch is unreachable from `tokenize`. -/
def tokenizeGo : Nat → List Char → Except String (List Token)
  | _, [] => .ok [(.EOF, "")]
  | 0, _ :: _ => .error "tokenizer: fuel esaurito"
  | fuel + 1, c :: cs =>
    if pyIsSpace c then tokenizeGo fuel cs
    else if c = ';' then .ok [(.EOF, "")]
    else if c = '(' then (tokenizeGo fuel cs).map (fun ts => (.LPAREN, "(") :: ts)
    else if c = ')' then (tokenizeGo fuel cs).map (fun ts => (.RPAREN, ")") :: ts)
    else if c = '|' || c = '∣' then (tokenizeGo fuel cs).map (fun ts => (.OR, "|") :: ts)
    else if c = '.' then (tokenizeGo fuel cs).map (fun ts => (.DOT, ".") :: ts)
    else if c = '*' then (tokenizeGo fuel cs).map (fun ts => (.STAR, "*") :: ts)
    else if isIdentStart c then
      (tokenizeGo fuel (cs.dropWhile isIdentChar)).map
        (fun ts => (.IDENT, String.mk (c :: cs.takeWhile isIdentChar)) :: ts)
    else .error ("Carattere non valido nella RPQ: " ++ String.mk [c])

/-- `rpq_syntax._tokenize`: strip the input, then scan it into tokens
terminated by `EOF`; any character outside the accepted alphabet raises. -/
def tokenize (expr : String) : Except String (List Token) :=
  let l := pyStrip expr.toList
  tokenizeGo l.length l

/-- `_RPQParser._peek`, with the `EOF` sentinel as the out-of-range default
(the Python parser never reads past the final `EOF` token). -/
def peek (toks : List Token) (pos : Nat) : Token := toks.getD pos (.EOF, "")

/-- `_RPQParser._concat_alts`: pairwise concatenation of two alternative
lists, with the empty-list shortcuts of the source. -/
def concat_alts (left right : List (List Atom)) : List (List Atom) :=
  if left = [] then right
  else if right = [] then left
  else left.flatMap (fun a => right.map (fun b => a ++ b))

/-- State of the loop inside `_RPQParser._kleene_star` after `n` iterations:
first component is `result` (the accumulated expansion), second is
`current` (the alternatives of length `n + 1` repetitions). -/
def kleeneIter (alts : List (List Atom)) : Nat → List (List Atom) × List (List Atom)
  | 0 => ([[]], alts)
  | n + 1 =>
    let p := kleeneIter alts n
    (p.1 ++ p.2, p.2.flatMap (fun seq => alts.map (fun a => seq ++ a)))

/-- `_RPQParser._kleene_star` with its default repetition cap of 3:
epsilon, then 1 up to `maxRepeat` concatenated copies of `alts`. -/
def kleene_star (alts : List (List Atom)) (maxRepeat : Nat := 3) : List (List Atom) :=
  (kleeneIter alts maxRepeat).1

/-- The pending call of the recursive-descent parser `_RPQParser`: one
constructor per parser method, plus the two `while` loops written as
tail-recursive states.  Packing the mutually recursive methods into one
fuel-indexed function keeps the recursion structural, so the kernel can
evaluate the parser. -/
inductive PJob
  | alt (pos : Nat)
  | altLoop (pos : Nat) (alts : List (List Atom))
  | concat (pos : Nat)
  | concatLoop (pos : Nat) (alts : List (List Atom))
  | factor (pos : Nat)
  | base (pos : Nat)

/-- The body of `_RPQParser`: `alt` is `_parse_alt` (a concatenation, then
the OR loop), `concat` is `_parse_concat` (a factor, then the loop over
explicit dots and implicit concatenation), `factor` is `_parse_factor`
(a base with an optional star), and `base` is `_parse_base` (an identifier,
always a forward atom with `inv = false`, or a parenthesised alternation).
The fuel bounds the call depth and is always sufficient (see
`parse_rpq`). -/
def parseRun (toks : List Token) : Nat → PJob → Except String (List (List Atom) × Nat)
  | 0, _ => .error "parser: fuel esaurito"
  | fuel + 1, job =>
    match job with
    | .alt pos => do
      let r ← parseRun toks fuel (.concat pos)
      parseRun toks fuel (.altLoop r.2 r.1)
    | .altLoop pos alts =>
      if (peek toks pos).1 = TokKind.OR then do
        let r ← parseRun toks fuel (.concat (pos + 1))
        parseRun toks fuel (.altLoop r.2 (alts ++ r.1))
      else .ok (alts, pos)
    | .concat pos => do
      let r ← parseRun toks fuel (.factor pos)
      parseRun toks fuel (.concatLoop r.2 r.1)
    | .concatLoop pos alts =>
      match (peek toks pos).1 with
      | TokKind.DOT => do
        let r ← parseRun toks fuel (.factor (pos + 1))
        parseRun toks fuel (.concatLoop r.2 (concat_alts alts r.1))
      | TokKind.IDENT => do
        let r ← parseRun toks fuel (.factor pos)
        parseRun toks fuel (.concatLoop r.2 (concat_alts alts r.1))
      | TokKind.LPAREN => do
        let r ← parseRun toks fuel (.factor pos)
        parseRun toks fuel (.concatLoop r.2 (concat_alts alts r.1))
      | _ => .ok (alts, pos)
    | .factor pos => do
      let r ← parseRun toks fuel (.base pos)
      if (peek toks r.2).1 = TokKind.STAR then .ok (kleene_star r.1, r.2 + 1)
      else .ok r
    | .base pos =>
      match peek toks pos with
      | (TokKind.IDENT, val) => .ok ([[(false, val)]], pos + 1)
      | (TokKind.LPAREN, _) => do
        let r ← parseRun toks fuel (.alt (pos + 1))
        if (peek toks r.2).1 = TokKind.RPAREN then .ok (r.1, r.2 + 1)
        else .error "Atteso token RPAREN"
      | _ => .error "Token inatteso in fattore RPQ"

/-- `_RPQParser._parse_alt` from a given position. -/
def parse_alt (fuel : Nat) (toks : List Token) (pos : Nat) :
    Except String (List (List Atom) × Nat) :=
  parseRun toks fuel (.alt pos)

/-- Replace every occurrence of the alternation character with the ASCII
bar, as in `expr.strip().replace(..)` at the start of `parse_rpq`. -/
def normalizeOr (l : List Char) : List Char :=
  l.map (fun c => if c = '∣' then '|' else c)

/-- `rpq_syntax.parse_rpq`: normalise the OR character, tokenize, run the
recursive-descent parser, and require the final token to be `EOF` or
`RPAREN`.  The fuel handed to the parser exceeds the number of parser-call
frames the Python recursion can create on this token list. -/
def parse_rpq (expr : String) : Except String (List (List Atom)) := do
  let expr1 := String.mk (normalizeOr (pyStrip expr.toList))
  let toks ← tokenize expr1
  let r ← parse_alt (16 * (toks.length + 1)) toks 0
  if (peek toks r.2).1 = TokKind.EOF || (peek toks r.2).1 = TokKind.RPAREN then .ok r.1
  else .error "Token inatteso alla fine della RPQ"

/-- Replace `<=` with the inclusion character, scanning left to right
without overlap, as Python `str.replace` does. -/
def replaceLE : List Char → List Char
  | '<' :: '=' :: rest => '⊆' :: replaceLE rest
  | c :: rest => c :: replaceLE rest
  | [] => []

/-- Python `body.split(c)` on a character list: the pieces between the
occurrences of `c`, in order; always at least one piece. -/
def splitOnChar (c : Char) : List Char → List (List Char)
  | [] => [[]]
  | x :: xs =>
    match splitOnChar c xs with
    | [] => [[]]
    | h :: t => if x = c then [] :: h :: t else (x :: h) :: t

/-- Position of the name delimiter in `parse_rpc`: the first `=` or `:`,
whichever appears first, mirroring the `eq_pos` and `colon_pos` logic. -/
def nameEndPos (l : List Char) : Option Nat :=
  match l.findIdx? (· = '='), l.findIdx? (· = ':') with
  | none, none => none
  | some e, none => some e
  | none, some c => some c
  | some e, some c => some (if e < c then e else c)

/-- Strip a single trailing semicolon then strip whitespace, as in the
`s.endswith` branch of `parse_rpc`. -/
def dropTrailingSemi (l : List Char) : List Char :=
  if l.getLast? = some ';' then pyStrip l.dropLast else l

/-- The stripped input of `parse_rpc`. -/
def rpcStripped (s : String) : List Char := pyStrip s.toList

/-- The normalised constraint body of `parse_rpc`: stripped input, trailing
semicolon removed, `<=` replaced by the inclusion character. -/
def rpcBody2 (s : String) : List Char := replaceLE (dropTrailingSemi (rpcStripped s))

/-- `rpq_syntax.parse_rpc`: strip, reject empty input, drop a trailing
semicolon, normalise `<=`, split the name at the first `=` or `:` (reject a
missing delimiter or an empty name), require exactly one inclusion
character in the body, strip both sides (the right side loses one more
trailing semicolon), reject an empty side, and parse each side as an
RPQ. -/
def parse_rpc (constraint_str : String) :
    Except String (String × List (List Atom) × List (List Atom)) :=
  if rpcStripped constraint_str = [] then .error "Vincolo vuoto"
  else
    match nameEndPos (rpcBody2 constraint_str) with
    | none => .error "Manca il delimitatore del nome nel vincolo RPC"
    | some nameEnd =>
      if pyStrip ((rpcBody2 constraint_str).take nameEnd) = [] then
        .error "Nome del vincolo mancante"
      else
        match splitOnChar '⊆' (pyStrip ((rpcBody2 constraint_str).drop (nameEnd + 1))) with
        | [lhsRaw, rhsRaw] =>
          if pyStrip lhsRaw = [] ∨ dropTrailingSemi (pyStrip rhsRaw) = [] then
            .error "Parte sinistra o destra vuota nel vincolo RPC"
          else do
            let lhs_alts ← parse_rpq (String.mk (pyStrip lhsRaw))
            let rhs_alts ← parse_rpq (String.mk (dropTrailingSemi (pyStrip rhsRaw)))
            .ok (String.mk (pyStrip ((rpcBody2 constraint_str).take nameEnd)),
                 lhs_alts, rhs_alts)
        | _ => .error "Il vincolo deve contenere esattamente un simbolo di inclusione"

/-! ## Deterministic sorted views of finite sets

Python iterates over `set` objects in an unspecified order; the source
sorts query results (`sorted(list(...))`) or bounds them (`LIMIT`).  We
model every place where the source turns a set into a concrete row order
by the unique sorted list of the set, a deterministic refinement. -/

/-- Lexicographic order on node pairs: Python tuple comparison. -/
def pairLe (a b : Nat × Nat) : Prop :=
  a.1 < b.1 ∨ (a.1 = b.1 ∧ a.2 ≤ b.2)

instance : DecidableRel pairLe := fun a b => by
  unfold pairLe; exact inferInstance

instance : IsTrans (Nat × Nat) pairLe :=
  ⟨by intro a b c hab hbc; unfold pairLe at *; omega⟩

instance : IsAntisymm (Nat × Nat) pairLe :=
  ⟨by intro a b hab hba; unfold pairLe at *; rw [Prod.ext_iff]; omega⟩

instance : IsTotal (Nat × Nat) pairLe :=
  ⟨by intro a b; unfold pairLe; omega⟩

/-- Sorted list of the elements of a multiset, by insertion sort (which the
kernel can evaluate).  Well defined because sorting two permuted lists by a
total antisymmetric order yields the same list. -/
def msort (r : α → α → Prop) [DecidableRel r] [IsTrans α r] [IsAntisymm α r]
    [IsTotal α r] (s : Multiset α) : List α :=
  Quot.liftOn s (fun l => List.insertionSort r l) fun l1 l2 h =>
    List.eq_of_perm_of_sorted
      ((List.perm_insertionSort r l1).trans (h.trans (List.perm_insertionSort r l2).symm))
      (List.sorted_insertionSort r l1) (List.sorted_insertionSort r l2)

def sortedPairs (s : Finset (Nat × Nat)) : List (Nat × Nat) := msort pairLe s.val

/-- The sorted list of a finite set of nodes. -/
def sortedNats (s : Finset Nat) : List Nat := msort (· ≤ ·) s.val

/-! ## The graph model

The Neo4j database is modelled by its node identities and its labelled
edges.  `MATCH (u)-[:r]->(v)` enumerates `labelEdges g r`. -/

/-- A directed labelled graph: node identities and edges `(source, label,
target)`.  This models the Neo4j instance that the service queries. -/
structure Graph where
  nodes : Finset Nat
  edges : Finset (Nat × String × Nat)
deriving DecidableEq

/-- Endpoint pairs of the edges carrying label `rel`: the rows of
`MATCH (u)-[:rel]->(v) RETURN id(u), id(v)`. -/
def labelEdges (g : Graph) (rel : String) : Finset (Nat × Nat) :=
  (g.edges.filter (fun e => e.2.1 = rel)).image (fun e => (e.1, e.2.2))

/-- One join step of `pairs_for_sequence`: extend every partial pair
`(u, x)` by an edge `x -rel-> y` to `(u, y)`.  In the source the `inv` and
forward branches of the follow-up query are the same pattern up to variable
names (both match `(x_old)-[:rel]->(x_new)` with `x_old` in the frontier),
so the step does not depend on the inverse flag. -/
def stepJoin (g : Graph) (out : Finset (Nat × Nat)) (a : Atom) : Finset (Nat × Nat) :=
  out.biUnion fun p =>
    ((labelEdges g a.2).filter (fun e => e.1 = p.2)).image (fun e => (p.1, e.2))

/-- The first step of `pairs_for_sequence`: forward edges, or swapped
endpoint pairs when the atom is inverse. -/
def firstStep (g : Graph) (a : Atom) : Finset (Nat × Nat) :=
  if a.1 then (labelEdges g a.2).image Prod.swap else labelEdges g a.2

/-- `rpq_inclusion.pairs_for_sequence`: the empty sequence yields no pairs;
otherwise the step-by-step relational join of the atoms. -/
def pairs_for_sequence (g : Graph) : List Atom → Finset (Nat × Nat)
  | [] => ∅
  | a :: rest => rest.foldl (stepJoin g) (firstStep g a)

/-- `rpq_inclusion.pairs_for_alts`: union over the alternatives. -/
def pairs_for_alts (g : Graph) (alts : List (List Atom)) : Finset (Nat × Nat) :=
  alts.foldl (fun out seq => out ∪ pairs_for_sequence g seq) ∅

/-- `rpq_inclusion.validate_symbols`: one error per atom whose label strips
to the empty string. -/
def validate_symbols (lhs_alts rhs_alts : List (List Atom)) : List String :=
  (lhs_alts ++ rhs_alts).foldl
    (fun errors seq =>
      seq.foldl
        (fun errors a =>
          if pyStripStr a.2 = "" then errors ++ ["Simbolo vuoto in un vincolo"] else errors)
        errors)
    []

/-! ## The textual pre-pass `_expand_simple_parentheses`

The Python function first rewrites every `|` to the Unicode bar, then
repeatedly rewrites the leftmost occurrence of the regular expression
pattern for a group of the shape `pre.(A∣B)` into `pre.A∣pre.B`.  The
deterministic scan below produces the same matches as the (greedy,
backtracking) regex: every run of word characters is maximal, because any
character a group hands back would have to match a dot or a parenthesis
and word characters match neither. -/

/-- Python word character (the `[\w_]` class, ASCII view). -/
def wordChar (c : Char) : Bool := c.isAlphanum || c = '_'

/-- Consume the `(\.[\w_]+)*` repetitions of the group pattern: pairs of a
dot and a nonempty word run, as long as they occur.  Returns the consumed
text and the remainder.  Fuel decreases on each call; each iteration
consumes at least two characters, so fuel equal to the length suffices. -/
def chainRuns : Nat → List Char → List Char × List Char
  | 0, l => ([], l)
  | fuel + 1, l =>
    match l with
    | '.' :: c :: rest =>
      if wordChar c then
        let w := c :: rest.takeWhile wordChar
        let p := chainRuns fuel (rest.dropWhile wordChar)
        ('.' :: w ++ p.1, p.2)
      else ([], l)
    | _ => ([], l)

/-- Attempt to match the group pattern anchored at the head of `l`.
Returns the dotted group-1 text, groups 2 and 3, and the remainder after
the closing parenthesis. -/
def matchAt (l : List Char) : Option (List Char × List Char × List Char × List Char) :=
  let w := l.takeWhile wordChar
  if w = [] then none
  else
    let r0 := l.dropWhile wordChar
    let p := chainRuns r0.length r0
    match p.2 with
    | '.' :: '(' :: r1 =>
      let a := r1.takeWhile wordChar
      if a = [] then none
      else
        let r2 := (r1.dropWhile wordChar).dropWhile pyIsSpace
        match r2 with
        | '∣' :: r3 =>
          let r4 := r3.dropWhile pyIsSpace
          let b := r4.takeWhile wordChar
          if b = [] then none
          else
            match r4.dropWhile wordChar with
            | ')' :: rest => some (w ++ p.1, a, b, rest)
            | _ => none
        | _ => none
    | _ => none

/-- Leftmost match: try `matchAt` at every position from the left, as
`re.search` does.  Returns the text before the match and the match. -/
def searchFrom : Nat → List Char →
    Option (List Char × (List Char × List Char × List Char × List Char))
  | _, [] => none
  | 0, _ :: _ => none
  | fuel + 1, c :: cs =>
    match matchAt (c :: cs) with
    | some m => some ([], m)
    | none => (searchFrom fuel cs).map (fun p => (c :: p.1, p.2))

/-- One rewrite of the `while` loop: replace the leftmost match
`pre.(A∣B)` by `pre.A∣pre.B`. -/
def expandStep (l : List Char) : Option (List Char) :=
  (searchFrom l.length l).map fun p =>
    p.1 ++ (p.2.1 ++ '.' :: p.2.2.1 ++ '∣' :: p.2.1 ++ '.' :: p.2.2.2.1) ++ p.2.2.2.2

/-- The rewrite loop.  Each successful rewrite removes exactly one opening
parenthesis (the replacement contains none), so fuel equal to the number of
opening parentheses plus one suffices. -/
def expandLoop : Nat → List Char → List Char
  | 0, l => l
  | fuel + 1, l =>
    match expandStep l with
    | none => l
    | some l2 => expandLoop fuel l2

/-- `rpq_inclusion._expand_simple_parentheses`: normalise `|` to the
Unicode bar, then rewrite `pre.(A∣B)` groups to fixpoint. -/
def expand_simple_parentheses (s : String) : String :=
  let l := s.toList.map (fun c => if c = '|' then '∣' else c)
  String.mk (expandLoop (l.count '(' + 1) l)

/-! ## The inclusion checker -/

/-- The fields of the dictionary returned by `check_inclusion` on the
normal path. -/
structure InclusionResult where
  ok : Bool
  name : String
  lhs_pairs : Nat
  rhs_pairs : Nat
  violations : List (Nat × Nat)
  violations_count : Nat
deriving DecidableEq, Repr

/-- The two shapes of dictionary `check_inclusion` can return: the
schema-validation failure or the normal result. -/
inductive InclusionOutcome
  | schemaError (name : String) (errors : List String)
  | result (r : InclusionResult)
deriving DecidableEq, Repr

/-- `rpq_inclusion.check_inclusion`: expand the textual groups, parse the
constraint, validate symbols, compute both pair sets and report the sorted
violations capped at 200. -/
def check_inclusion (g : Graph) (constraint_str : String) : Except String InclusionOutcome := do
  let expanded := expand_simple_parentheses constraint_str
  let (name, lhs, rhs) ← parse_rpc expanded
  let schema_errors := validate_symbols lhs rhs
  if schema_errors ≠ [] then
    return .schemaError name schema_errors
  else
    let lhs_pairs := pairs_for_alts g lhs
    let rhs_pairs := pairs_for_alts g rhs
    let violations := sortedPairs (lhs_pairs \ rhs_pairs)
    return .result
      { ok := violations.length == 0
        name := name
        lhs_pairs := lhs_pairs.card
        rhs_pairs := rhs_pairs.card
        violations := violations.take 200
        violations_count := violations.length }

/-! ## The measures engine (`measures.py`) -/

/-- The pairs matched by the linear Cypher pattern that `fast_violation`
builds for a sequence, which uses only the labels (the inverse flag is
discarded by `for i, (_, rel) in enumerate(...)`).  An empty sequence
yields the pattern `(n0)` alone, whose endpoints coincide on every node. -/
def fwdPattern (g : Graph) : List Atom → Finset (Nat × Nat)
  | [] => g.nodes.image (fun n => (n, n))
  | a :: rest => rest.foldl (stepJoin g) (labelEdges g a.2)

/-- `measures.fast_violation`: for each LHS alternative in order, fetch up
to 20 pairs matching the LHS pattern and no RHS pattern (row order modelled
by the sorted order); stop at the first alternative with such rows. -/
def fast_violation (g : Graph) (lhs_alts rhs_alts : List (List Atom)) :
    Bool × Finset (Nat × Nat) :=
  match lhs_alts with
  | [] => (false, ∅)
  | lhs :: restAlts =>
    let viol :=
      if rhs_alts = [] then fwdPattern g lhs
      else (fwdPattern g lhs).filter (fun p => ∀ r ∈ rhs_alts, p ∉ fwdPattern g r)
    let rows := (sortedPairs viol).take 20
    if rows ≠ [] then (true, rows.toFinset)
    else fast_violation g restAlts rhs_alts

/-- Outgoing neighbours of `x` along label `rel`, in sorted order (the
deterministic model of row order). -/
def nbrs (g : Graph) (rel : String) (x : Nat) : List Nat :=
  sortedNats (((labelEdges g rel).filter (fun e => e.1 = x)).image (fun e => e.2))

/-- All node lists realising a label sequence starting at `x`, in the
deterministic enumeration order. -/
def pathsFrom (g : Graph) : List Atom → Nat → List (List Nat)
  | [], x => [[x]]
  | a :: rest, x =>
    (nbrs g a.2 x).flatMap (fun y => (pathsFrom g rest y).map (fun l => x :: l))

/-- `measures.one_witness_path_for_sequence`: no witness for sequences with
an inverse atom; otherwise one matching path from `u` to `v` (the `LIMIT 1`
choice modelled by the first path in enumeration order), returned as
`(u, v, label)` triples — hence the empty list for the empty sequence. -/
def one_witness_path_for_sequence (g : Graph) (seq : List Atom) (u v : Nat) :
    List (Nat × Nat × String) :=
  if seq.any (fun a => a.1) then []
  else
    match ((pathsFrom g seq u).filter (fun ns => ns.getLast? = some v)).head? with
    | none => []
    | some ns =>
      (List.range seq.length).map
        (fun i => (ns.getD i 0, ns.getD (i + 1) 0, (seq.getD i (false, "")).2))

/-- The inner loop of the witness extraction in `compute_measures`: the
first LHS sequence whose witness query returns a non-empty path. -/
def firstWitness (g : Graph) (allLhs : List (List Atom)) (u v : Nat) :
    Option (List (Nat × Nat × String)) :=
  allLhs.findSome? fun seq =>
    let p := one_witness_path_for_sequence g seq u v
    if p ≠ [] then some p else none

/-- The witness extraction loop of `compute_measures`: for each violating
pair in order, keep the first non-empty witness path, if any. -/
def collectWitnessPaths (g : Graph) (allLhs : List (List Atom))
    (probPairs : List (Nat × Nat)) : List (List (Nat × Nat × String)) :=
  probPairs.filterMap (fun p => firstWitness g allLhs p.1 p.2)

/-- A per-constraint entry of the `per_constraint` details list. -/
inductive ConstraintReport
  | schemaValidation (name : String) (errors : List String)
  | fastChecked (name : String) (ok : Bool) (violations_count : Nat)
deriving DecidableEq, Repr

/-- Accumulated state after the first (fast-check) loop of
`compute_measures`. -/
structure Phase1 where
  violated : Nat
  fastPairs : Finset (Nat × Nat)
  reports : List ConstraintReport
  allLhs : List (List Atom)
  allRhs : List (List Atom)
deriving DecidableEq

/-- The fast-check loop of `compute_measures`: parse each constraint
(parse errors abort the whole call), count symbol-validation failures as
violated, otherwise run `fast_violation` when a fast measure is requested,
extending the flat lists of LHS and RHS sequences. -/
def phase1 (g : Graph) (needFast : Bool) : List String → Except String Phase1
  | [] => .ok ⟨0, ∅, [], [], []⟩
  | raw :: rest => do
    let (name, lhs, rhs) ← parse_rpc (expand_simple_parentheses raw)
    let errors := validate_symbols lhs rhs
    if errors ≠ [] then do
      let p ← phase1 g needFast rest
      return ⟨p.violated + 1, p.fastPairs, .schemaValidation name errors :: p.reports,
              p.allLhs, p.allRhs⟩
    else
      let fv := if needFast then fast_violation g lhs rhs else (false, ∅)
      do
        let p ← phase1 g needFast rest
        return ⟨(if fv.1 then 1 else 0) + p.violated,
                (if fv.1 then fv.2 else ∅) ∪ p.fastPairs,
                .fastChecked name (!fv.1) fv.2.card :: p.reports,
                lhs ++ p.allLhs, rhs ++ p.allRhs⟩

/-- The default measure list used when `requested_measures is None`. -/
def defaultMeasures : List String :=
  ["mu_drastic", "mu_violated_constraints", "problematic_pairs",
   "minimal_problematic_graphs", "minimal_problematic_paths", "problematic_edges",
   "problematic_labels", "problematic_vertices", "I_E_minus", "I_E_plus", "I_V_minus"]

/-- The three measures served by the fast path alone. -/
def fastNames : List String :=
  ["mu_drastic", "mu_violated_constraints", "problematic_pairs"]

/-- The measures whose request triggers witness-path extraction. -/
def pathNeedNames : List String :=
  ["minimal_problematic_graphs", "minimal_problematic_paths", "problematic_edges",
   "problematic_labels", "problematic_vertices", "I_E_minus"]

/-- First-match lookup in the summary association list (Python dictionary
access; the source never writes the same summary key twice). -/
def summaryGet (k : String) : List (String × Nat) → Option Nat
  | [] => none
  | e :: rest => if e.1 = k then some e.2 else summaryGet k rest

/-- The result of `compute_measures`: the summary map in insertion order
and the details lists. -/
structure MeasuresResult where
  summary : List (String × Nat)
  per_constraint : List ConstraintReport
  pairs : List (Nat × Nat)
  MIMS : List (Finset (Nat × Nat × String))
  minimal_paths : List (List (Nat × Nat × String))
deriving DecidableEq

/-- The minimal-path filter of `compute_measures` (step 6): keep path `P`
at index `i` unless some path at another index is a subset of `P` as an
edge set and strictly shorter. -/
def minimalPathsOf (ws : List (List (Nat × Nat × String))) :
    List (List (Nat × Nat × String)) :=
  (ws.enum.filter (fun ip =>
    ws.enum.all (fun jq =>
      jq.1 == ip.1 ||
        !(decide (jq.2.toFinset ⊆ ip.2.toFinset) && decide (jq.2.length < ip.2.length))))).map
    (fun ip => ip.2)

/-- The minimal-edge-set filter of `compute_measures` (step 7): keep the
edge set at index `i` unless the set at another index is a strict subset. -/
def minimalSetsOf (pathSets : List (Finset (Nat × Nat × String))) :
    List (Finset (Nat × Nat × String)) :=
  (pathSets.enum.filter (fun ip =>
    pathSets.enum.all (fun jq => jq.1 == ip.1 || !(decide (jq.2 ⊂ ip.2))))).map
    (fun ip => ip.2)

/-- One pass of the greedy vertex cover of `compute_measures` (I_V_minus):
the frequency of a vertex among the remaining pairs. -/
def vertexFreq (pairsLeft : Finset (Nat × Nat)) (w : Nat) : Nat :=
  (pairsLeft.filter (fun p => p.1 = w)).card + (pairsLeft.filter (fun p => p.2 = w)).card

/-- Python `max(freq, key=freq.get)` keeps the first key attaining the
maximum; the candidate order is modelled by the sorted vertex list. -/
def argmaxBy (f : Nat → Nat) : List Nat → Option Nat
  | [] => none
  | x :: xs =>
    match argmaxBy f xs with
    | none => some x
    | some y => if f y > f x then some y else some x

/-- The greedy vertex-cover loop of `compute_measures` (I_V_minus): pick
the vertex with the highest frequency, drop its incident pairs, repeat.
Each iteration removes at least one pair, so fuel equal to the number of
pairs plus one suffices. -/
def greedyCover : Nat → Finset (Nat × Nat) → Nat
  | 0, _ => 0
  | fuel + 1, pairsLeft =>
    if pairsLeft = ∅ then 0
    else
      let verts := sortedNats (pairsLeft.image Prod.fst ∪ pairsLeft.image Prod.snd)
      match argmaxBy (vertexFreq pairsLeft) verts with
      | none => 0
      | some vstar =>
        1 + greedyCover fuel (pairsLeft.filter (fun p => p.1 ≠ vstar ∧ p.2 ≠ vstar))

/-- `measures.compute_measures`: fast-check every constraint, emit the base
summary, return early when only fast measures are requested, otherwise
compute the full pair sets, extract witness paths when needed, and derive
the advanced measures.  Note the misspelled summary key written for the
`minimal_problematic_graphs` measure, faithful to the source. -/
def compute_measures (g : Graph) (constraints : List String)
    (requested_measures : Option (List String) := none) : Except String MeasuresResult := do
  let req := requested_measures.getD defaultMeasures
  let needFast := req.any (fun m => m ∈ fastNames)
  let p ← phase1 g needFast constraints
  let baseSummary :=
    (if "mu_drastic" ∈ req then [("mu_drastic", if p.violated > 0 then 1 else 0)] else []) ++
    (if "mu_violated_constraints" ∈ req then [("mu_violated_constraints", p.violated)] else []) ++
    (if "problematic_pairs" ∈ req then [("problematic_pairs", p.fastPairs.card)] else [])
  if req.all (fun m => m ∈ fastNames) then
    return ⟨baseSummary, p.reports, sortedPairs p.fastPairs, [], []⟩
  else
    let allPairsLHS := p.allLhs.foldl (fun acc seq => acc ∪ pairs_for_sequence g seq) ∅
    let allPairsRHS := p.allRhs.foldl (fun acc seq => acc ∪ pairs_for_sequence g seq) ∅
    let allProblemPairs := allPairsLHS \ allPairsRHS
    let needPaths := req.any (fun m => m ∈ pathNeedNames)
    let witnessPaths :=
      if needPaths then collectWitnessPaths g p.allLhs (sortedPairs allProblemPairs) else []
    let probEdges := witnessPaths.foldl (fun acc pth => acc ∪ pth.toFinset)
      (∅ : Finset (Nat × Nat × String))
    let probLabels := witnessPaths.foldl
      (fun acc pth => acc ∪ (pth.map (fun e => e.2.2)).toFinset) (∅ : Finset String)
    let probVertices := witnessPaths.foldl
      (fun acc pth =>
        acc ∪ (pth.map (fun e => e.1)).toFinset ∪ (pth.map (fun e => e.2.1)).toFinset)
      (∅ : Finset Nat)
    let minPaths :=
      if "minimal_problematic_paths" ∈ req then minimalPathsOf witnessPaths else []
    let minSets :=
      if "minimal_problematic_graphs" ∈ req ∨ "I_E_minus" ∈ req then
        minimalSetsOf (witnessPaths.map List.toFinset)
      else []
    let summary :=
      baseSummary ++
      (if "problematic_edges" ∈ req then [("problematic_edges", probEdges.card)] else []) ++
      (if "problematic_labels" ∈ req then [("problematic_labels", probLabels.card)] else []) ++
      (if "problematic_vertices" ∈ req then
        [("problematic_vertices", probVertices.card)] else []) ++
      (if "minimal_problematic_paths" ∈ req then
        [("minimal_problematic_paths", minPaths.length)] else []) ++
      (if "minimal_problematic_graphs" ∈ req then
        [("minimal_problemmatic_graphs", minSets.length)] else []) ++
      (if "I_E_minus" ∈ req then [("I_E_minus", minSets.length)] else []) ++
      (if "I_E_plus" ∈ req then [("I_E_plus", allProblemPairs.card)] else []) ++
      (if "I_V_minus" ∈ req then
        [("I_V_minus", greedyCover (allProblemPairs.card + 1) allProblemPairs)] else [])
    return ⟨summary, p.reports, sortedPairs allProblemPairs, minSets, minPaths⟩

/-! ## Spec-side definitions used to state the claims -/

-- Equality of parser results is decidable; used to evaluate the embedding
-- on concrete inputs.
deriving instance DecidableEq for Except

/-- The alternatives made of exactly `k` concatenated alternatives of
`alts`: the meaning of "`k` repetitions of `D`" in the specification of the
bounded Kleene expansion. -/
def kleenePow (alts : List (List Atom)) : Nat → List (List Atom)
  | 0 => [[]]
  | k + 1 => (kleenePow alts k).flatMap (fun seq => alts.map (fun a => seq ++ a))

/-- A labelled path in the graph: `chainPath g x labels y` holds when the
label sequence can be traversed forward from `x` to `y`. -/
def chainPath (g : Graph) : Nat → List String → Nat → Prop
  | x, [], y => x = y
  | x, rel :: rest, y => ∃ z, (x, z) ∈ labelEdges g rel ∧ chainPath g z rest y

/-- The union of the pair sets of a list of sequences, written as the set
union of the specification (`⋃ pairs(s)`). -/
def seqsUnion (g : Graph) (seqs : List (List Atom)) : Finset (Nat × Nat) :=
  seqs.toFinset.biUnion (pairs_for_sequence g)

/-- A parsed constraint, as the specification views it in the witness
extraction step: name, LHS alternatives, RHS alternatives. -/
abbrev ParsedRpc : Type := String × List (List Atom) × List (List Atom)

/-- The specification phrase "the constraint that produced the pair": the
pair lies in the LHS pair set of the constraint and not in its RHS pair
set. -/
def Produces (g : Graph) (c : ParsedRpc) (u v : Nat) : Prop :=
  (u, v) ∈ pairs_for_alts g c.2.1 ∧ (u, v) ∉ pairs_for_alts g c.2.2

instance (g : Graph) (c : ParsedRpc) (u v : Nat) : Decidable (Produces g c u v) := by
  unfold Produces; exact inferInstance

/-- Following the specification wording of the witness extraction: the LHS
sequences, in order, of exactly those constraints that produced the
pair. -/
def producingLhs (g : Graph) (cons : List ParsedRpc) (u v : Nat) : List (List Atom) :=
  (cons.filter (fun c => decide (Produces g c u v))).flatMap (fun c => c.2.1)

/-- A well-behaved atom label: nonempty and made of identifier characters.
Every label the tokenizer emits satisfies this. -/
def GoodLabel (s : String) : Prop :=
  s ≠ "" ∧ ∀ c ∈ s.toList, isIdentChar c = true

/-- Every `IDENT` token of the list carries a well-behaved value. -/
def GoodToks (toks : List Token) : Prop :=
  ∀ t ∈ toks, t.1 = TokKind.IDENT → GoodLabel t.2

/-- Every atom of every alternative is forward (`inv = false`) and carries
a well-behaved label. -/
def GoodAlts (alts : List (List Atom)) : Prop :=
  ∀ seq ∈ alts, ∀ a ∈ seq, a.1 = false ∧ GoodLabel a.2

/-! # Theorems -/

theorem length_msort (r : α → α → Prop) [DecidableRel r] [IsTrans α r] [IsAntisymm α r]
    [IsTotal α r] (s : Multiset α) : (msort r s).length = Multiset.card s :=
  Quot.inductionOn s fun l => by
    show (List.insertionSort r l).length = Multiset.card (l : Multiset α)
    simp

theorem mem_msort (r : α → α → Prop) [DecidableRel r] [IsTrans α r] [IsAntisymm α r]
    [IsTotal α r] (s : Multiset α) (a : α) : a ∈ msort r s ↔ a ∈ s :=
  Quot.inductionOn s fun l => by
    show a ∈ List.insertionSort r l ↔ a ∈ (l : Multiset α)
    simp [List.mem_insertionSort]

theorem sorted_msort (r : α → α → Prop) [DecidableRel r] [IsTrans α r] [IsAntisymm α r]
    [IsTotal α r] (s : Multiset α) : (msort r s).Sorted r :=
  Quot.inductionOn s fun l => List.sorted_insertionSort r l

/-- The sorted list of a finite set of node pairs (Python
`sorted(list(pairs))`, and our deterministic model of row order). -/

theorem length_sortedPairs (s : Finset (Nat × Nat)) : (sortedPairs s).length = s.card :=
  length_msort pairLe s.val

theorem mem_sortedPairs (s : Finset (Nat × Nat)) (a : Nat × Nat) :
    a ∈ sortedPairs s ↔ a ∈ s := mem_msort pairLe s.val a

theorem sortedPairs_eq_nil_iff (s : Finset (Nat × Nat)) : sortedPairs s = [] ↔ s = ∅ := by
  constructor
  · intro h
    have := length_sortedPairs s
    rw [h] at this
    exact Finset.card_eq_zero.mp this.symm
  · intro h
    subst h
    rfl

theorem mem_sortedNats (s : Finset Nat) (a : Nat) : a ∈ sortedNats s ↔ a ∈ s :=
  mem_msort (· ≤ ·) s.val a

/-! ## Kleene expansion -/

theorem nil_mem_kleeneIter_fst (alts : List (List Atom)) (n : Nat) :
    [] ∈ (kleeneIter alts n).1 := by
  induction n with
  | zero => simp [kleeneIter]
  | succ n ih => simpa [kleeneIter] using Or.inl ih

theorem kleeneIter_snd (alts : List (List Atom)) (n : Nat) :
    (kleeneIter alts n).2 = kleenePow alts (n + 1) := by
  induction n with
  | zero => simp [kleeneIter, kleenePow]
  | succ n ih => simp [kleeneIter, kleenePow, ih]

theorem mem_kleeneIter_fst (alts : List (List Atom)) (seq : List Atom) (n : Nat) :
    seq ∈ (kleeneIter alts n).1 ↔ ∃ k ≤ n, seq ∈ kleenePow alts k := by
  induction n with
  | zero =>
    simp only [kleeneIter]
    constructor
    · intro h
      exact ⟨0, le_refl 0, by simpa [kleenePow] using h⟩
    · rintro ⟨k, hk, hmem⟩
      interval_cases k
      simpa [kleenePow] using hmem
  | succ n ih =>
    simp only [kleeneIter, List.mem_append, ih, kleeneIter_snd]
    constructor
    · rintro (⟨k, hk, hmem⟩ | hmem)
      · exact ⟨k, Nat.le_succ_of_le hk, hmem⟩
      · exact ⟨n + 1, le_refl _, hmem⟩
    · rintro ⟨k, hk, hmem⟩
      rcases Nat.lt_or_ge k (n + 1) with h | h
      · exact Or.inl ⟨k, Nat.lt_succ_iff.mp h, hmem⟩
      · have : k = n + 1 := le_antisymm hk h
        exact Or.inr (this ▸ hmem)

theorem mem_kleenePow (alts : List (List Atom)) (k : Nat) (seq : List Atom) :
    seq ∈ kleenePow alts k ↔
      ∃ parts : List (List Atom),
        parts.length = k ∧ (∀ p ∈ parts, p ∈ alts) ∧ seq = parts.flatten := by
  induction k generalizing seq with
  | zero =>
    simp only [kleenePow, List.mem_singleton]
    constructor
    · rintro rfl
      exact ⟨[], rfl, by simp, rfl⟩
    · rintro ⟨parts, hlen, _, rfl⟩
      rw [List.length_eq_zero.mp hlen]
      rfl
  | succ k ih =>
    simp only [kleenePow, List.mem_flatMap, List.mem_map]
    constructor
    · rintro ⟨s, hs, a, ha, rfl⟩
      rcases (ih s).mp hs with ⟨parts, hlen, hmem, rfl⟩
      refine ⟨parts ++ [a], by simp [hlen], ?_, by simp⟩
      intro p hp
      rcases List.mem_append.mp hp with h | h
      · exact hmem p h
      · simpa using (List.mem_singleton.mp h) ▸ ha
    · rintro ⟨parts, hlen, hmem, rfl⟩
      have hne : parts ≠ [] := by
        intro h
        rw [h] at hlen
        exact Nat.succ_ne_zero k hlen.symm
      rcases List.eq_nil_or_concat parts with h | ⟨ps, a, rfl⟩
      · exact absurd h hne
      · refine ⟨ps.flatten, ?_, a, ?_, by simp⟩
        · apply (ih ps.flatten).mpr
          refine ⟨ps, ?_, fun p hp => hmem p (by simp [hp]), rfl⟩
          have := hlen
          simp at this
          exact this
        · exact hmem a (by simp)

/-- C7: membership in `kleene_star alts` is exactly being a concatenation
of at most three alternatives of `alts` (the `ε` branch being the empty
concatenation): the bounded Kleene expansion is `{ε} ∪ D ∪ D·D ∪ D·D·D`
and no more. -/
theorem kleene_star_bounded_expansion (alts : List (List Atom)) (seq : List Atom) :
    seq ∈ kleene_star alts ↔
      ∃ parts : List (List Atom),
        parts.length ≤ 3 ∧ (∀ p ∈ parts, p ∈ alts) ∧ seq = parts.flatten := by
  unfold kleene_star
  rw [mem_kleeneIter_fst]
  constructor
  · rintro ⟨k, hk, hmem⟩
    rcases (mem_kleenePow alts k seq).mp hmem with ⟨parts, hlen, hall, rfl⟩
    exact ⟨parts, hlen ▸ hk, hall, rfl⟩
  · rintro ⟨parts, hlen, hall, rfl⟩
    exact ⟨parts.length, hlen, (mem_kleenePow alts parts.length _).mpr ⟨parts, rfl, hall, rfl⟩⟩

/-- C5 counterexample: parsing the well-formed RPQ `a*` yields the empty
sequence (the `ε` branch of the Kleene expansion) among the parsed
alternatives, so parsing does produce empty sequences. -/
theorem parse_rpq_star_yields_empty_sequence :
    parse_rpq "a*" =
      Except.ok [[], [(false, "a")], [(false, "a"), (false, "a")],
        [(false, "a"), (false, "a"), (false, "a")]] := by
  decide

/-- C5 amended: the `ε` branch of the bounded Kleene expansion is kept in
the parsed alternatives (it is not removed anywhere before evaluation);
the slow-path evaluator `pairs_for_sequence` maps the empty sequence to the
empty pair set. -/
theorem kleene_star_keeps_epsilon (g : Graph) (alts : List (List Atom)) :
    [] ∈ kleene_star alts ∧ pairs_for_sequence g [] = ∅ :=
  ⟨nil_mem_kleeneIter_fst alts 3, rfl⟩

/-! ## Tokenizer invariants -/

theorem isIdentStart_isIdentChar {c : Char} (h : isIdentStart c = true) :
    isIdentChar c = true := by
  unfold isIdentStart at h
  unfold isIdentChar
  simp only [Bool.or_eq_true] at h ⊢
  rcases h with h | h
  · exact Or.inl (by simp [Char.isAlphanum, h])
  · exact Or.inr h

theorem identChar_not_space {c : Char} (h : isIdentChar c = true) : pyIsSpace c = false := by
  cases hsp : pyIsSpace c
  · rfl
  · exfalso
    unfold pyIsSpace at hsp
    have hc : c = ' ' ∨ c = '\t' ∨ c = '\r' ∨ c = '\n' := by
      simp [Char.isWhitespace] at hsp
      tauto
    rcases hc with rfl | rfl | rfl | rfl <;> exact absurd h (by decide)

theorem goodLabel_of_ident_run (c : Char) (cs : List Char) (h : isIdentStart c = true) :
    GoodLabel (String.mk (c :: cs.takeWhile isIdentChar)) := by
  constructor
  · intro he
    have : (c :: cs.takeWhile isIdentChar) = [] := congrArg String.toList he
    simp at this
  · intro d hd
    have hd : d ∈ c :: cs.takeWhile isIdentChar := hd
    rcases List.mem_cons.mp hd with rfl | hd
    · exact isIdentStart_isIdentChar h
    · exact List.mem_takeWhile_imp hd

theorem goodToks_cons {t : Token} {ts : List Token}
    (h1 : t.1 = TokKind.IDENT → GoodLabel t.2) (h2 : GoodToks ts) : GoodToks (t :: ts) := by
  intro x hx hk
  rcases List.mem_cons.mp hx with rfl | hx
  · exact h1 hk
  · exact h2 x hx hk

theorem goodToks_eof : GoodToks [(oneTok : Token)] → True := fun _ => trivial

theorem tokenizeGo_good :
    ∀ (fuel : Nat) (l : List Char) (toks : List Token),
      tokenizeGo fuel l = .ok toks → GoodToks toks := by
  intro fuel
  induction fuel with
  | zero =>
    intro l toks h
    cases l with
    | nil =>
      simp only [tokenizeGo, Except.ok.injEq] at h
      subst h
      intro t ht hk
      simp at ht
      subst ht
      simp at hk
    | cons c cs => simp [tokenizeGo] at h
  | succ fuel ih =>
    intro l toks h
    cases l with
    | nil =>
      simp only [tokenizeGo, Except.ok.injEq] at h
      subst h
      intro t ht hk
      simp at ht
      subst ht
      simp at hk
    | cons c cs =>
      simp only [tokenizeGo] at h
      split_ifs at h with h1 h2 h3 h4 h5 h6 h7 h8
      · exact ih _ _ h
      · simp only [Except.ok.injEq] at h
        subst h
        intro t ht hk
        simp at ht
        subst ht
        simp at hk
      · cases hx : tokenizeGo fuel cs with
        | error e => rw [hx] at h; simp [Except.map] at h
        | ok ts =>
          rw [hx] at h
          simp only [Except.map, Except.ok.injEq] at h
          subst h
          refine goodToks_cons ?_ (ih _ _ hx)
          intro hk
          simp at hk
      · cases hx : tokenizeGo fuel cs with
        | error e => rw [hx] at h; simp [Except.map] at h
        | ok ts =>
          rw [hx] at h
          simp only [Except.map, Except.ok.injEq] at h
          subst h
          refine goodToks_cons ?_ (ih _ _ hx)
          intro hk
          simp at hk
      · cases hx : tokenizeGo fuel cs with
        | error e => rw [hx] at h; simp [Except.map] at h
        | ok ts =>
          rw [hx] at h
          simp only [Except.map, Except.ok.injEq] at h
          subst h
          refine goodToks_cons ?_ (ih _ _ hx)
          intro hk
          simp at hk
      · cases hx : tokenizeGo fuel cs with
        | error e => rw [hx] at h; simp [Except.map] at h
        | ok ts =>
          rw [hx] at h
          simp only [Except.map, Except.ok.injEq] at h
          subst h
          refine goodToks_cons ?_ (ih _ _ hx)
          intro hk
          simp at hk
      · cases hx : tokenizeGo fuel cs with
        | error e => rw [hx] at h; simp [Except.map] at h
        | ok ts =>
          rw [hx] at h
          simp only [Except.map, Except.ok.injEq] at h
          subst h
          refine goodToks_cons ?_ (ih _ _ hx)
          intro hk
          simp at hk
      · cases hx : tokenizeGo fuel (cs.dropWhile isIdentChar) with
        | error e => rw [hx] at h; simp [Except.map] at h
        | ok ts =>
          rw [hx] at h
          simp only [Except.map, Except.ok.injEq] at h
          subst h
          refine goodToks_cons ?_ (ih _ _ hx)
          intro hk
          exact goodLabel_of_ident_run c cs h8

theorem tokenize_good {s : String} {toks : List Token} (h : tokenize s = .ok toks) :
    GoodToks toks :=
  tokenizeGo_good _ _ _ h

theorem caret_survives_dropWhile :
    ∀ l : List Char, '^' ∈ l.takeWhile (fun c => c ≠ ';') →
      '^' ∈ (l.dropWhile isIdentChar).takeWhile (fun c => c ≠ ';') := by
  intro l
  induction l with
  | nil => simp
  | cons c cs ih =>
    intro h
    cases hq : isIdentChar c
    · rw [List.dropWhile_cons]
      simp only [hq]
      exact h
    · have hcne : c ≠ ';' := fun he => by subst he; exact absurd hq (by decide)
      have hcar : c ≠ '^' := fun he => by subst he; exact absurd hq (by decide)
      rw [List.takeWhile_cons, if_pos (by simp [hcne])] at h
      rcases List.mem_cons.mp h with he | h2
      · exact absurd he.symm hcar
      · rw [List.dropWhile_cons]
        simp only [hq]
        exact ih h2

theorem tokenizeGo_caret :
    ∀ (fuel : Nat) (l : List Char), l.length ≤ fuel →
      '^' ∈ l.takeWhile (fun c => c ≠ ';') →
      ∃ msg, tokenizeGo fuel l = .error msg := by
  intro fuel
  induction fuel with
  | zero =>
    intro l hlen hmem
    cases l with
    | nil => simp at hmem
    | cons c cs => simp at hlen
  | succ fuel ih =>
    intro l hlen hmem
    cases l with
    | nil => simp at hmem
    | cons c cs =>
      by_cases hsemi : c = ';'
      · subst hsemi
        rw [List.takeWhile_cons] at hmem
        simp at hmem
      by_cases hcar : c = '^'
      · subst hcar
        refine ⟨"Carattere non valido nella RPQ: " ++ String.mk ['^'], ?_⟩
        simp [tokenizeGo, pyIsSpace, isIdentStart]
      · have hmem2 : '^' ∈ cs.takeWhile (fun c => c ≠ ';') := by
          rw [List.takeWhile_cons, if_pos (by simp [hsemi])] at hmem
          rcases List.mem_cons.mp hmem with he | h2
          · exact absurd he.symm hcar
          · exact h2
        have hlen2 : cs.length ≤ fuel := Nat.le_of_succ_le_succ (by simpa using hlen)
        simp only [tokenizeGo]
        split_ifs with h1 h2 h3 h4 h5 h6 h7
        · exact ih cs hlen2 hmem2
        · rcases ih cs hlen2 hmem2 with ⟨m, hm⟩
          exact ⟨m, by rw [hm]; rfl⟩
        · rcases ih cs hlen2 hmem2 with ⟨m, hm⟩
          exact ⟨m, by rw [hm]; rfl⟩
        · rcases ih cs hlen2 hmem2 with ⟨m, hm⟩
          exact ⟨m, by rw [hm]; rfl⟩
        · rcases ih cs hlen2 hmem2 with ⟨m, hm⟩
          exact ⟨m, by rw [hm]; rfl⟩
        · rcases ih cs hlen2 hmem2 with ⟨m, hm⟩
          exact ⟨m, by rw [hm]; rfl⟩
        · rcases ih (cs.dropWhile isIdentChar)
            (le_trans (List.Sublist.length_le (List.dropWhile_sublist _)) hlen2)
            (caret_survives_dropWhile cs hmem2) with ⟨m, hm⟩
          exact ⟨m, by rw [hm]; rfl⟩
        · exact ⟨_, rfl⟩

/-! ## Parser invariants -/

theorem goodAlts_append {l r : List (List Atom)} (hl : GoodAlts l) (hr : GoodAlts r) :
    GoodAlts (l ++ r) := by
  intro seq hseq
  rcases List.mem_append.mp hseq with h | h
  · exact hl seq h
  · exact hr seq h

theorem goodAlts_concat_alts {l r : List (List Atom)} (hl : GoodAlts l) (hr : GoodAlts r) :
    GoodAlts (concat_alts l r) := by
  unfold concat_alts
  split_ifs with h1 h2
  · exact hr
  · exact hl
  · intro seq hseq a ha
    rcases List.mem_flatMap.mp hseq with ⟨x, hx, hy⟩
    rcases List.mem_map.mp hy with ⟨y, hy2, rfl⟩
    rcases List.mem_append.mp ha with h | h
    · exact hl x hx a h
    · exact hr y hy2 a h

theorem goodAlts_kleene_star {alts : List (List Atom)} (h : GoodAlts alts) :
    GoodAlts (kleene_star alts) := by
  intro seq hseq a ha
  unfold kleene_star at hseq
  rcases (mem_kleeneIter_fst alts seq 3).mp hseq with ⟨k, _, hp⟩
  rcases (mem_kleenePow alts k seq).mp hp with ⟨parts, _, hmem, rfl⟩
  rcases List.mem_flatten.mp ha with ⟨p, hp2, hap⟩
  exact h p (hmem p hp2) a hap

theorem peek_ident_mem {toks : List Token} {pos : Nat}
    (h : (peek toks pos).1 = TokKind.IDENT) : peek toks pos ∈ toks := by
  unfold peek at *
  by_cases hlt : pos < toks.length
  · rw [List.getD_eq_getElem _ _ hlt]
    exact List.getElem_mem hlt
  · rw [List.getD_eq_default _ _ (le_of_not_lt hlt)] at h
    simp at h

theorem parseRun_good {toks : List Token} (hg : GoodToks toks) :
    ∀ (fuel : Nat) (job : PJob) (res : List (List Atom) × Nat),
      parseRun toks fuel job = .ok res →
      (∀ pos alts, job = .altLoop pos alts → GoodAlts alts) →
      (∀ pos alts, job = .concatLoop pos alts → GoodAlts alts) →
      GoodAlts res.1 := by
  intro fuel
  induction fuel with
  | zero =>
    intro job res h _ _
    simp [parseRun] at h
  | succ fuel ih =>
    intro job res h hA hC
    cases job with
    | alt pos =>
      cases h1 : parseRun toks fuel (.concat pos) with
      | error e => simp [parseRun, bind, Except.bind, h1] at h
      | ok r =>
        simp only [parseRun, bind, Except.bind, h1] at h
        exact ih _ res h
          (fun p alts he => by cases he; exact ih _ r h1 (by simp) (by simp))
          (by simp)
    | altLoop pos alts =>
      have halts : GoodAlts alts := hA pos alts rfl
      by_cases hOR : (peek toks pos).1 = TokKind.OR
      · cases h1 : parseRun toks fuel (.concat (pos + 1)) with
        | error e => simp [parseRun, bind, Except.bind, hOR, h1] at h
        | ok r =>
          simp only [parseRun, bind, Except.bind, hOR, if_true] at h
          rw [h1] at h
          have hr : GoodAlts r.1 := ih _ r h1 (by simp) (by simp)
          exact ih _ res h
            (fun p alts2 he => by cases he; exact goodAlts_append halts hr)
            (by simp)
      · simp only [parseRun, hOR, if_false, Except.ok.injEq] at h
        subst h
        exact halts
    | concat pos =>
      cases h1 : parseRun toks fuel (.factor pos) with
      | error e => simp [parseRun, bind, Except.bind, h1] at h
      | ok r =>
        simp only [parseRun, bind, Except.bind, h1] at h
        exact ih _ res h (by simp)
          (fun p alts he => by cases he; exact ih _ r h1 (by simp) (by simp))
    | concatLoop pos alts =>
      have halts : GoodAlts alts := hC pos alts rfl
      simp only [parseRun] at h
      cases hk : (peek toks pos).1
      case DOT =>
        rw [hk] at h
        cases h1 : parseRun toks fuel (.factor (pos + 1)) with
        | error e => simp [bind, Except.bind, h1] at h
        | ok r =>
          simp only [bind, Except.bind, h1] at h
          have hr : GoodAlts r.1 := ih _ r h1 (by simp) (by simp)
          exact ih _ res h (by simp)
            (fun p alts2 he => by cases he; exact goodAlts_concat_alts halts hr)
      case IDENT =>
        rw [hk] at h
        cases h1 : parseRun toks fuel (.factor pos) with
        | error e => simp [bind, Except.bind, h1] at h
        | ok r =>
          simp only [bind, Except.bind, h1] at h
          have hr : GoodAlts r.1 := ih _ r h1 (by simp) (by simp)
          exact ih _ res h (by simp)
            (fun p alts2 he => by cases he; exact goodAlts_concat_alts halts hr)
      case LPAREN =>
        rw [hk] at h
        cases h1 : parseRun toks fuel (.factor pos) with
        | error e => simp [bind, Except.bind, h1] at h
        | ok r =>
          simp only [bind, Except.bind, h1] at h
          have hr : GoodAlts r.1 := ih _ r h1 (by simp) (by simp)
          exact ih _ res h (by simp)
            (fun p alts2 he => by cases he; exact goodAlts_concat_alts halts hr)
      all_goals
        rw [hk] at h
        simp only [Except.ok.injEq] at h
        subst h
        exact halts
    | factor pos =>
      cases h1 : parseRun toks fuel (.base pos) with
      | error e => simp [parseRun, bind, Except.bind, h1] at h
      | ok r =>
        simp only [parseRun, bind, Except.bind, h1] at h
        have hr : GoodAlts r.1 := ih _ r h1 (by simp) (by simp)
        split_ifs at h <;> simp only [Except.ok.injEq] at h <;> subst h
        · exact goodAlts_kleene_star hr
        · exact hr
    | base pos =>
      simp only [parseRun] at h
      rcases hpk : peek toks pos with ⟨k, v⟩
      rw [hpk] at h
      cases k with
      | IDENT =>
        simp only [Except.ok.injEq] at h
        subst h
        intro seq hseq a ha
        simp only [List.mem_singleton] at hseq
        subst hseq
        simp only [List.mem_singleton] at ha
        subst ha
        refine ⟨rfl, ?_⟩
        have hmem := @peek_ident_mem toks pos (by rw [hpk])
        rw [hpk] at hmem
        exact hg _ hmem rfl
      | LPAREN =>
        cases h1 : parseRun toks fuel (.alt (pos + 1)) with
        | error e => simp [bind, Except.bind, h1] at h
        | ok r =>
          simp only [bind, Except.bind, h1] at h
          have hr : GoodAlts r.1 := ih _ r h1 (by simp) (by simp)
          by_cases hrp : (peek toks r.2).1 = TokKind.RPAREN
          · rw [if_pos hrp] at h
            simp only [Except.ok.injEq] at h
            subst h
            exact hr
          · rw [if_neg hrp] at h
            simp at h
      | RPAREN => simp at h
      | OR => simp at h
      | DOT => simp at h
      | STAR => simp at h
      | EOF => simp at h

theorem parse_rpq_good {s : String} {alts : List (List Atom)}
    (h : parse_rpq s = .ok alts) : GoodAlts alts := by
  unfold parse_rpq at h
  simp only [bind, Except.bind] at h
  split at h
  · simp at h
  · rename_i toks ht
    split at h
    · simp at h
    · rename_i r hp
      split at h
      · simp only [Except.ok.injEq] at h
        subst h
        exact parseRun_good (tokenize_good ht) _ _ r hp (by simp) (by simp)
      · simp at h

/-! ## Symbol validation -/

theorem dropWhile_eq_self_of_all {p : Char → Bool} {l : List Char}
    (h : ∀ c ∈ l, p c = false) : l.dropWhile p = l := by
  cases l with
  | nil => rfl
  | cons c cs => simp [List.dropWhile_cons, h c (by simp)]

theorem pyStrip_eq_self {l : List Char} (h : ∀ c ∈ l, pyIsSpace c = false) :
    pyStrip l = l := by
  unfold pyStrip
  rw [dropWhile_eq_self_of_all h,
    dropWhile_eq_self_of_all (fun c hc => h c (List.mem_reverse.mp hc)),
    List.reverse_reverse]

theorem pyStripStr_ne_empty {s : String} (h : GoodLabel s) : pyStripStr s ≠ "" := by
  obtain ⟨hne, hch⟩ := h
  unfold pyStripStr
  rw [pyStrip_eq_self (fun c hc => identChar_not_space (hch c hc))]
  intro he
  exact hne he

theorem validate_inner {seq : List Atom} (h : ∀ a ∈ seq, pyStripStr a.2 ≠ "")
    (errs : List String) :
    seq.foldl
      (fun errs a =>
        if pyStripStr a.2 = "" then errs ++ ["Simbolo vuoto in un vincolo"] else errs)
      errs = errs := by
  induction seq generalizing errs with
  | nil => rfl
  | cons a rest ih =>
    simp only [List.foldl_cons]
    rw [if_neg (h a (by simp))]
    exact ih (fun x hx => h x (by simp [hx])) errs

theorem validate_outer (seqs : List (List Atom))
    (h : ∀ seq ∈ seqs, ∀ a ∈ seq, pyStripStr a.2 ≠ "") (errs : List String) :
    seqs.foldl
      (fun errs seq =>
        seq.foldl
          (fun errs a =>
            if pyStripStr a.2 = "" then errs ++ ["Simbolo vuoto in un vincolo"] else errs)
          errs)
      errs = errs := by
  induction seqs generalizing errs with
  | nil => rfl
  | cons seq rest ih =>
    simp only [List.foldl_cons]
    rw [validate_inner (h seq (by simp)) errs]
    exact ih (fun x hx => h x (by simp [hx])) errs

theorem validate_symbols_eq_nil {lhs rhs : List (List Atom)}
    (h : ∀ seq ∈ lhs ++ rhs, ∀ a ∈ seq, pyStripStr a.2 ≠ "") :
    validate_symbols lhs rhs = [] :=
  validate_outer (lhs ++ rhs) h []

set_option maxHeartbeats 1000000 in
theorem parse_rpc_good {s name : String} {lhs rhs : List (List Atom)}
    (h : parse_rpc s = .ok (name, lhs, rhs)) : GoodAlts lhs ∧ GoodAlts rhs := by
  unfold parse_rpc at h
  simp only [bind, Except.bind] at h
  split at h
  · simp at h
  · split at h
    · simp at h
    · split at h
      · simp at h
      · split at h
        · split at h
          · simp at h
          · split at h
            · simp at h
            · rename_i lhsv hl
              split at h
              · simp at h
              · rename_i rhsv hr
                simp only [Except.ok.injEq, Prod.mk.injEq] at h
                obtain ⟨-, hlv, hrv⟩ := h
                subst hlv
                subst hrv
                exact ⟨parse_rpq_good hl, parse_rpq_good hr⟩
        · simp at h

/-- C10: every RPC string accepted by `parse_rpc` yields LHS and RHS
alternatives on which `validate_symbols` reports no error: every atom label
emitted by the tokenizer is a nonempty identifier, so the
`schema_validation` branches of `check_inclusion` and `compute_measures`
cannot fire for constraints produced by the string API. -/
theorem parse_rpc_labels_pass_validation (s name : String) (lhs rhs : List (List Atom))
    (h : parse_rpc s = Except.ok (name, lhs, rhs)) :
    validate_symbols lhs rhs = [] := by
  obtain ⟨hl, hr⟩ := parse_rpc_good h
  apply validate_symbols_eq_nil
  intro seq hseq a ha
  rcases List.mem_append.mp hseq with hmem | hmem
  · exact pyStripStr_ne_empty (hl seq hmem a ha).2
  · exact pyStripStr_ne_empty (hr seq hmem a ha).2

theorem parse_rpc_labels_pass_validation_witness :
    validate_symbols [[(false, "a")]] [[(false, "b")]] = [] :=
  parse_rpc_labels_pass_validation "C1 = a ⊆ b" "C1" [[(false, "a")]] [[(false, "b")]]
    (by decide)

/-- C1 counterexample: the lexer does not tokenise the inverse marker as a
CARET token; it raises a lexing error on it, and parsing an RPQ string
containing a caret-marked label fails instead of producing an inverse
atom. -/
theorem caret_lexes_to_error :
    tokenize "^child_of" = Except.error "Carattere non valido nella RPQ: ^" ∧
    parse_rpq "^child_of" = Except.error "Carattere non valido nella RPQ: ^" := by
  constructor <;> decide

/-- C1 amended: the tokenizer raises a lexing error whenever the inverse
marker occurs before the terminator in the stripped input (there is no
CARET token kind), and every atom produced by a successful RPQ parse has
`inverse = false`. -/
theorem caret_rejected_and_no_inverse_atoms :
    (∀ s : String, '^' ∈ (pyStrip s.toList).takeWhile (fun c => c ≠ ';') →
      ∃ msg, tokenize s = Except.error msg) ∧
    (∀ (s : String) (alts : List (List Atom)), parse_rpq s = Except.ok alts →
      ∀ seq ∈ alts, ∀ a ∈ seq, a.1 = false) := by
  constructor
  · intro s hmem
    exact tokenizeGo_caret _ _ le_rfl hmem
  · intro s alts h seq hseq a ha
    exact (parse_rpq_good h seq hseq a ha).1

theorem caret_rejected_and_no_inverse_atoms_witness :
    (∃ msg, tokenize "^a" = Except.error msg) ∧
    (∀ seq ∈ [[((false : Bool), "a")]], ∀ a ∈ seq, a.1 = false) :=
  ⟨caret_rejected_and_no_inverse_atoms.1 "^a" (by decide),
   caret_rejected_and_no_inverse_atoms.2 "a" [[(false, "a")]] (by decide)⟩

/-! ## RPC parse errors -/

theorem length_splitOnChar (c : Char) (l : List Char) :
    (splitOnChar c l).length = l.count c + 1 := by
  induction l with
  | nil => simp [splitOnChar]
  | cons x xs ih =>
    rcases hs : splitOnChar c xs with _ | ⟨h1, t⟩
    · rw [hs] at ih
      simp at ih
    · rw [hs] at ih
      simp only [splitOnChar, hs]
      by_cases hx : x = c
      · subst hx
        rw [if_pos rfl, List.count_cons_self]
        simp only [List.length_cons] at ih ⊢
        omega
      · rw [if_neg hx, List.count_cons_of_ne (fun he => hx he.symm)]
        simp only [List.length_cons] at ih ⊢
        omega

/-- C8 counterexample: the input `": a ⊆ b"` is nonempty, has a name
delimiter, exactly one inclusion character, and nonempty LHS and RHS, yet
`parse_rpc` raises (the constraint name is empty) — an error cause outside
the list in the claim. -/
theorem parse_rpc_empty_name_counterexample :
    parse_rpc ": a ⊆ b" = Except.error "Nome del vincolo mancante" ∧
    rpcStripped ": a ⊆ b" ≠ [] ∧
    nameEndPos (rpcBody2 ": a ⊆ b") = some 0 ∧
    ((rpcBody2 ": a ⊆ b").drop 1).count '⊆' = 1 ∧
    (splitOnChar '⊆' (pyStrip ((rpcBody2 ": a ⊆ b").drop 1))).length = 2 ∧
    pyStrip ((splitOnChar '⊆' (pyStrip ((rpcBody2 ": a ⊆ b").drop 1))).getD 0 []) ≠ [] ∧
    dropTrailingSemi
      (pyStrip ((splitOnChar '⊆' (pyStrip ((rpcBody2 ": a ⊆ b").drop 1))).getD 1 [])) ≠ [] := by
  refine ⟨by decide, by decide, by decide, by decide, by decide, by decide, by decide⟩

set_option maxHeartbeats 1000000 in
/-- C8 amended: `parse_rpc` raises exactly for: empty (whitespace-only)
input, missing name delimiter, a number of inclusion characters in the body
different from one, an empty LHS or RHS — and additionally for an empty
constraint name, and for an LHS or RHS that fails RPQ parsing.  On accepted
input the returned name is the stripped segment of the normalised body
before the first `=` or `:`. -/
theorem parse_rpc_error_conditions (s : String) :
    ((∃ msg, parse_rpc s = Except.error msg) ↔
      (rpcStripped s = [] ∨
       nameEndPos (rpcBody2 s) = none ∨
       (∃ k, nameEndPos (rpcBody2 s) = some k ∧
         (pyStrip ((rpcBody2 s).take k) = [] ∨
          (pyStrip ((rpcBody2 s).drop (k + 1))).count '⊆' ≠ 1 ∨
          (∃ lhsRaw rhsRaw,
            splitOnChar '⊆' (pyStrip ((rpcBody2 s).drop (k + 1))) = [lhsRaw, rhsRaw] ∧
            (pyStrip lhsRaw = [] ∨ dropTrailingSemi (pyStrip rhsRaw) = [] ∨
             (∃ m, parse_rpq (String.mk (pyStrip lhsRaw)) = Except.error m) ∨
             (∃ m,
               parse_rpq (String.mk (dropTrailingSemi (pyStrip rhsRaw))) =
                 Except.error m))))))) ∧
    (∀ name lhs rhs, parse_rpc s = Except.ok (name, lhs, rhs) →
      ∃ k, nameEndPos (rpcBody2 s) = some k ∧
        name = String.mk (pyStrip ((rpcBody2 s).take k))) := by
  by_cases h0 : rpcStripped s = []
  · refine ⟨iff_of_true ⟨_, by simp only [parse_rpc, if_pos h0]; rfl⟩ (Or.inl h0), ?_⟩
    intro name lhs rhs h
    simp only [parse_rpc, if_pos h0] at h
    exact Except.noConfusion h
  · rcases hE : nameEndPos (rpcBody2 s) with _ | k
    · refine ⟨iff_of_true ⟨_, by simp only [parse_rpc, if_neg h0, hE]; rfl⟩
        (Or.inr (Or.inl rfl)), ?_⟩
      intro name lhs rhs h
      simp only [parse_rpc, if_neg h0, hE] at h
      exact Except.noConfusion h
    · by_cases hname : pyStrip ((rpcBody2 s).take k) = []
      · refine ⟨iff_of_true
          ⟨_, by simp only [parse_rpc, if_neg h0, hE, if_pos hname]; rfl⟩
          (Or.inr (Or.inr ⟨k, rfl, Or.inl hname⟩)), ?_⟩
        intro name lhs rhs h
        simp only [parse_rpc, if_neg h0, hE, if_pos hname] at h
        exact Except.noConfusion h
      · rcases hS : splitOnChar '⊆' (pyStrip ((rpcBody2 s).drop (k + 1))) with
          _ | ⟨l1, _ | ⟨l2, _ | ⟨l3, rest⟩⟩⟩
        · have hcount := length_splitOnChar '⊆' (pyStrip ((rpcBody2 s).drop (k + 1)))
          rw [hS] at hcount
          simp at hcount
        · have hcount := length_splitOnChar '⊆' (pyStrip ((rpcBody2 s).drop (k + 1)))
          rw [hS] at hcount
          simp only [List.length_cons, List.length_nil] at hcount
          refine ⟨iff_of_true
            ⟨_, by simp only [parse_rpc, if_neg h0, hE, if_neg hname, hS]; rfl⟩
            (Or.inr (Or.inr ⟨k, rfl, Or.inr (Or.inl (by omega))⟩)), ?_⟩
          intro name lhs rhs h
          simp only [parse_rpc, if_neg h0, hE, if_neg hname, hS] at h
          exact Except.noConfusion h
        · by_cases hside : pyStrip l1 = [] ∨ dropTrailingSemi (pyStrip l2) = []
          · refine ⟨iff_of_true
              ⟨_, by simp only [parse_rpc, if_neg h0, hE, if_neg hname, hS,
                if_pos hside]; rfl⟩
              (Or.inr (Or.inr ⟨k, rfl, Or.inr (Or.inr ⟨l1, l2, hS, by tauto⟩)⟩)), ?_⟩
            intro name lhs rhs h
            simp only [parse_rpc, if_neg h0, hE, if_neg hname, hS, if_pos hside] at h
            exact Except.noConfusion h
          · rcases hL : parse_rpq (String.mk (pyStrip l1)) with mL | lA
            · refine ⟨iff_of_true
                ⟨mL, by simp only [parse_rpc, if_neg h0, hE, if_neg hname, hS,
                  if_neg hside, bind, Except.bind, hL]⟩
                (Or.inr (Or.inr ⟨k, rfl, Or.inr (Or.inr
                  ⟨l1, l2, hS, Or.inr (Or.inr (Or.inl ⟨mL, hL⟩))⟩)⟩)), ?_⟩
              intro name lhs rhs h
              simp only [parse_rpc, if_neg h0, hE, if_neg hname, hS, if_neg hside,
                bind, Except.bind, hL] at h
              exact Except.noConfusion h
            · rcases hR : parse_rpq (String.mk (dropTrailingSemi (pyStrip l2))) with mR | rA
              · refine ⟨iff_of_true
                  ⟨mR, by simp only [parse_rpc, if_neg h0, hE, if_neg hname, hS,
                    if_neg hside, bind, Except.bind, hL, hR]⟩
                  (Or.inr (Or.inr ⟨k, rfl, Or.inr (Or.inr
                    ⟨l1, l2, hS, Or.inr (Or.inr (Or.inr ⟨mR, hR⟩))⟩)⟩)), ?_⟩
                intro name lhs rhs h
                simp only [parse_rpc, if_neg h0, hE, if_neg hname, hS, if_neg hside,
                  bind, Except.bind, hL, hR] at h
                exact Except.noConfusion h
              · constructor
                · apply iff_of_false
                  · rintro ⟨msg, hmsg⟩
                    simp only [parse_rpc, if_neg h0, hE, if_neg hname, hS, if_neg hside,
                      bind, Except.bind, hL, hR] at hmsg
                    exact Except.noConfusion hmsg
                  · rintro (h | h | ⟨k2, hk2, hrest⟩)
                    · exact h0 h
                    · simp at h
                    · simp only [Option.some.injEq] at hk2
                      subst hk2
                      rcases hrest with h | h | ⟨r1, r2, hr, hbad⟩
                      · exact hname h
                      · have hcount :=
                          length_splitOnChar '⊆' (pyStrip ((rpcBody2 s).drop (k + 1)))
                        rw [hS] at hcount
                        simp only [List.length_cons, List.length_nil] at hcount
                        omega
                      · rw [hS] at hr
                        simp only [List.cons.injEq, and_true] at hr
                        obtain ⟨rfl, rfl, -⟩ := hr
                        rcases hbad with h | h | ⟨m, hm⟩ | ⟨m, hm⟩
                        · exact hside (Or.inl h)
                        · exact hside (Or.inr h)
                        · rw [hL] at hm
                          simp at hm
                        · rw [hR] at hm
                          simp at hm
                · intro name lhs rhs h
                  simp only [parse_rpc, if_neg h0, hE, if_neg hname, hS, if_neg hside,
                    bind, Except.bind, hL, hR, Except.ok.injEq, Prod.mk.injEq] at h
                  exact ⟨k, rfl, h.1.symm⟩
        · have hcount := length_splitOnChar '⊆' (pyStrip ((rpcBody2 s).drop (k + 1)))
          rw [hS] at hcount
          simp only [List.length_cons] at hcount
          refine ⟨iff_of_true
            ⟨_, by simp only [parse_rpc, if_neg h0, hE, if_neg hname, hS]; rfl⟩
            (Or.inr (Or.inr ⟨k, rfl, Or.inr (Or.inl (by omega))⟩)), ?_⟩
          intro name lhs rhs h
          simp only [parse_rpc, if_neg h0, hE, if_neg hname, hS] at h
          exact Except.noConfusion h

/-! ## Inclusion checker -/

/-- C6: for every constraint string that parses (after the textual group
expansion) and passes symbol validation, `check_inclusion` returns the
normal result record in which `ok` holds exactly when the violation set
`lhs_pairs ∖ rhs_pairs` is empty, `violations` is the sorted list of that
set truncated to 200 entries, `violations_count` is its full cardinality,
and `lhs_pairs`/`rhs_pairs` are the cardinalities of the unions of
`pairs(s)` over the LHS and RHS alternatives. -/
theorem check_inclusion_fields (g : Graph) (s name : String)
    (lhs rhs : List (List Atom))
    (hparse : parse_rpc (expand_simple_parentheses s) = Except.ok (name, lhs, rhs))
    (hval : validate_symbols lhs rhs = []) :
    ∃ r, check_inclusion g s = Except.ok (InclusionOutcome.result r) ∧
      (r.ok = true ↔ pairs_for_alts g lhs \ pairs_for_alts g rhs = ∅) ∧
      r.violations_count = (pairs_for_alts g lhs \ pairs_for_alts g rhs).card ∧
      r.violations = (sortedPairs (pairs_for_alts g lhs \ pairs_for_alts g rhs)).take 200 ∧
      List.Sorted pairLe r.violations ∧
      (∀ p, p ∈ sortedPairs (pairs_for_alts g lhs \ pairs_for_alts g rhs) ↔
        p ∈ pairs_for_alts g lhs \ pairs_for_alts g rhs) ∧
      r.lhs_pairs = (pairs_for_alts g lhs).card ∧
      r.rhs_pairs = (pairs_for_alts g rhs).card ∧ r.name = name := by
  refine ⟨{ ok := (sortedPairs (pairs_for_alts g lhs \ pairs_for_alts g rhs)).length == 0
            name := name
            lhs_pairs := (pairs_for_alts g lhs).card
            rhs_pairs := (pairs_for_alts g rhs).card
            violations :=
              (sortedPairs (pairs_for_alts g lhs \ pairs_for_alts g rhs)).take 200
            violations_count :=
              (sortedPairs (pairs_for_alts g lhs \ pairs_for_alts g rhs)).length },
          ?_, ?_, ?_, rfl, ?_, ?_, rfl, rfl, rfl⟩
  · simp only [check_inclusion, bind, Except.bind, hparse, hval, ne_eq, not_true_eq_false,
      if_false, pure, Except.pure]
  · simp only [beq_iff_eq, length_sortedPairs, Finset.card_eq_zero]
  · simp only [length_sortedPairs]
  · exact List.Pairwise.sublist (List.take_sublist _ _)
      (sorted_msort pairLe (pairs_for_alts g lhs \ pairs_for_alts g rhs).val)
  · intro p
    exact mem_sortedPairs _ p

theorem check_inclusion_fields_witness :
    ∃ r, check_inclusion ⟨{1, 2}, {(1, "a", 2)}⟩ "C = a ⊆ b" =
        Except.ok (InclusionOutcome.result r) ∧
      (r.ok = true ↔
        pairs_for_alts ⟨{1, 2}, {(1, "a", 2)}⟩ [[(false, "a")]] \
          pairs_for_alts ⟨{1, 2}, {(1, "a", 2)}⟩ [[(false, "b")]] = ∅) ∧
      r.violations_count =
        (pairs_for_alts ⟨{1, 2}, {(1, "a", 2)}⟩ [[(false, "a")]] \
          pairs_for_alts ⟨{1, 2}, {(1, "a", 2)}⟩ [[(false, "b")]]).card ∧
      r.violations =
        (sortedPairs
          (pairs_for_alts ⟨{1, 2}, {(1, "a", 2)}⟩ [[(false, "a")]] \
            pairs_for_alts ⟨{1, 2}, {(1, "a", 2)}⟩ [[(false, "b")]])).take 200 ∧
      List.Sorted pairLe r.violations ∧
      (∀ p, p ∈ sortedPairs
          (pairs_for_alts ⟨{1, 2}, {(1, "a", 2)}⟩ [[(false, "a")]] \
            pairs_for_alts ⟨{1, 2}, {(1, "a", 2)}⟩ [[(false, "b")]]) ↔
        p ∈ pairs_for_alts ⟨{1, 2}, {(1, "a", 2)}⟩ [[(false, "a")]] \
          pairs_for_alts ⟨{1, 2}, {(1, "a", 2)}⟩ [[(false, "b")]]) ∧
      r.lhs_pairs = (pairs_for_alts ⟨{1, 2}, {(1, "a", 2)}⟩ [[(false, "a")]]).card ∧
      r.rhs_pairs = (pairs_for_alts ⟨{1, 2}, {(1, "a", 2)}⟩ [[(false, "b")]]).card ∧
      r.name = "C" :=
  check_inclusion_fields ⟨{1, 2}, {(1, "a", 2)}⟩ "C = a ⊆ b" "C"
    [[(false, "a")]] [[(false, "b")]] (by decide) (by decide)

/-! ## Measures engine: summary bookkeeping -/

theorem summaryGet_cons_self (k : String) (v : Nat) (rest : List (String × Nat)) :
    summaryGet k ((k, v) :: rest) = some v := by
  simp [summaryGet]

theorem summaryGet_cons_ne {k k2 : String} (h : k2 ≠ k) (v : Nat)
    (rest : List (String × Nat)) : summaryGet k ((k2, v) :: rest) = summaryGet k rest := by
  simp [summaryGet, h]

theorem summaryGet_append_of_ne {k : String} {l1 l2 : List (String × Nat)}
    (h : ∀ e ∈ l1, e.1 ≠ k) : summaryGet k (l1 ++ l2) = summaryGet k l2 := by
  induction l1 with
  | nil => rfl
  | cons e rest ih =>
    simp only [List.cons_append, summaryGet, if_neg (h e (by simp))]
    exact ih fun x hx => h x (by simp [hx])

theorem keys_ne_ite (c : Prop) [Decidable c] (k2 : String) (v : Nat) (k : String)
    (h : k2 ≠ k) :
    ∀ e ∈ (if c then [(k2, v)] else ([] : List (String × Nat))), e.1 ≠ k := by
  intro e he
  split_ifs at he
  · simp at he
    subst he
    exact h
  · simp at he

theorem foldl_union_pairs (g : Graph) (seqs : List (List Atom))
    (init : Finset (Nat × Nat)) :
    seqs.foldl (fun acc seq => acc ∪ pairs_for_sequence g seq) init =
      init ∪ seqsUnion g seqs := by
  induction seqs generalizing init with
  | nil => simp [seqsUnion]
  | cons s rest ih =>
    simp only [List.foldl_cons, ih, seqsUnion, List.toFinset_cons, Finset.biUnion_insert]
    ext p
    simp only [Finset.mem_union, Finset.mem_biUnion]
    tauto

/-- C2 (the code bug made concrete): on a graph with one violating
constraint, requesting only `minimal_problematic_graphs` produces a summary
that has no entry under the requested key and stores the count of minimal
witness edge-sets under the misspelled key `minimal_problemmatic_graphs`
(measures.py line 289). -/
theorem minimal_problematic_graphs_key_misspelled :
    ∃ r, compute_measures ⟨{1, 2}, {(1, "a", 2)}⟩ ["x: a ⊆ b"]
        (some ["minimal_problematic_graphs"]) = Except.ok r ∧
      summaryGet "minimal_problematic_graphs" r.summary = none ∧
      summaryGet "minimal_problemmatic_graphs" r.summary = some 1 ∧
      r.MIMS = [{(1, 2, "a")}] := by
  refine ⟨⟨[("minimal_problemmatic_graphs", 1)],
           [.fastChecked "x" true 0],
           [(1, 2)], [{(1, 2, "a")}], []⟩, by decide, by decide, by decide, by decide⟩

/-- C3 counterexample: with the single edge `1 -a-> 2` and the constraints
`x: a ⊆ b` and `y: c ⊆ a`, a slow-path call requesting both measures
reports `problematic_pairs = 1` but `I_E_plus = 0`, while the
per-constraint union of violation pair-sets claimed by the specification
has cardinality 1 — so `problematic_pairs = I_E_plus = |⋃ (lhs ∖ rhs)|`
fails. -/
theorem problematic_pairs_ne_I_E_plus :
    ∃ r, compute_measures ⟨{1, 2}, {(1, "a", 2)}⟩ ["x: a ⊆ b", "y: c ⊆ a"]
        (some ["problematic_pairs", "I_E_plus"]) = Except.ok r ∧
      summaryGet "problematic_pairs" r.summary = some 1 ∧
      summaryGet "I_E_plus" r.summary = some 0 ∧
      ((pairs_for_alts ⟨{1, 2}, {(1, "a", 2)}⟩ [[(false, "a")]] \
          pairs_for_alts ⟨{1, 2}, {(1, "a", 2)}⟩ [[(false, "b")]]) ∪
        (pairs_for_alts ⟨{1, 2}, {(1, "a", 2)}⟩ [[(false, "c")]] \
          pairs_for_alts ⟨{1, 2}, {(1, "a", 2)}⟩ [[(false, "a")]])).card = 1 := by
  refine ⟨⟨[("problematic_pairs", 1), ("I_E_plus", 0)],
           [.fastChecked "x" false 1, .fastChecked "y" true 0],
           [], [], []⟩, by decide, by decide, by decide, by decide⟩

/-- C3 amended: on the slow path, `problematic_pairs` reports the size of
the sample union collected by the per-constraint fast check
(`fast_violation` returns at most 20 violating pairs, taken from the first
violating LHS alternative of the constraint), while `I_E_plus` is the
cardinality of the difference of the two global unions `⋃ lhs ∖ ⋃ rhs`
over all validated constraints; the two summary entries are computed from
different sets, and neither is `|⋃ (lhs ∖ rhs)|` in general. -/
theorem slow_path_problematic_pairs_and_I_E_plus (g : Graph) (cs : List String)
    (req : List String) (r : MeasuresResult) (p : Phase1)
    (hp : phase1 g (req.any (fun m => m ∈ fastNames)) cs = Except.ok p)
    (hslow : req.all (fun m => m ∈ fastNames) = false)
    (hpp : "problematic_pairs" ∈ req) (hie : "I_E_plus" ∈ req)
    (h : compute_measures g cs (some req) = Except.ok r) :
    summaryGet "problematic_pairs" r.summary = some p.fastPairs.card ∧
    summaryGet "I_E_plus" r.summary =
      some ((seqsUnion g p.allLhs \ seqsUnion g p.allRhs).card) := by
  simp only [compute_measures, Option.getD, bind, Except.bind, hp, hslow, if_false,
    Bool.false_eq_true, pure, Except.pure, Except.ok.injEq] at h
  subst h
  simp only [List.append_assoc]
  constructor
  · rw [summaryGet_append_of_ne (keys_ne_ite _ "mu_drastic" _ _ (by decide))]
    rw [summaryGet_append_of_ne (keys_ne_ite _ "mu_violated_constraints" _ _ (by decide))]
    rw [if_pos hpp, List.singleton_append, summaryGet_cons_self]
  · rw [summaryGet_append_of_ne (keys_ne_ite _ "mu_drastic" _ _ (by decide))]
    rw [summaryGet_append_of_ne (keys_ne_ite _ "mu_violated_constraints" _ _ (by decide))]
    rw [summaryGet_append_of_ne (keys_ne_ite _ "problematic_pairs" _ _ (by decide))]
    rw [summaryGet_append_of_ne (keys_ne_ite _ "problematic_edges" _ _ (by decide))]
    rw [summaryGet_append_of_ne (keys_ne_ite _ "problematic_labels" _ _ (by decide))]
    rw [summaryGet_append_of_ne (keys_ne_ite _ "problematic_vertices" _ _ (by decide))]
    rw [summaryGet_append_of_ne (keys_ne_ite _ "minimal_problematic_paths" _ _ (by decide))]
    rw [summaryGet_append_of_ne (keys_ne_ite _ "minimal_problemmatic_graphs" _ _ (by decide))]
    rw [summaryGet_append_of_ne (keys_ne_ite _ "I_E_minus" _ _ (by decide))]
    rw [if_pos hie, List.singleton_append, summaryGet_cons_self]
    rw [foldl_union_pairs, foldl_union_pairs, Finset.empty_union, Finset.empty_union]

theorem slow_path_problematic_pairs_and_I_E_plus_witness :
    summaryGet "problematic_pairs"
        [("problematic_pairs", 1), ("I_E_plus", 0)] =
      some (({((1 : Nat), (2 : Nat))} : Finset (Nat × Nat)).card) ∧
    summaryGet "I_E_plus" [("problematic_pairs", 1), ("I_E_plus", 0)] =
      some ((seqsUnion ⟨{1, 2}, {(1, "a", 2)}⟩ [[(false, "a")], [(false, "c")]] \
        seqsUnion ⟨{1, 2}, {(1, "a", 2)}⟩ [[(false, "b")], [(false, "a")]]).card) :=
  slow_path_problematic_pairs_and_I_E_plus ⟨{1, 2}, {(1, "a", 2)}⟩
    ["x: a ⊆ b", "y: c ⊆ a"] ["problematic_pairs", "I_E_plus"]
    ⟨[("problematic_pairs", 1), ("I_E_plus", 0)],
     [.fastChecked "x" false 1, .fastChecked "y" true 0], [], [], []⟩
    ⟨1, {(1, 2)}, [.fastChecked "x" false 1, .fastChecked "y" true 0],
     [[(false, "a")], [(false, "c")]], [[(false, "b")], [(false, "a")]]⟩
    (by decide) (by decide) (by decide) (by decide) (by decide)

/-- C9: for any constraint list, a call requesting exactly the two base
measures (fast path) and a call additionally requesting further measures
(slow path when any advanced measure is present) that both return normally
report identical summary values for `mu_drastic` and
`mu_violated_constraints`. -/
theorem fast_slow_agree_on_base_measures (g : Graph) (cs : List String)
    (extra : List String) (r1 r2 : MeasuresResult)
    (h1 : compute_measures g cs (some ["mu_drastic", "mu_violated_constraints"]) =
      Except.ok r1)
    (h2 : compute_measures g cs (some (["mu_drastic", "mu_violated_constraints"] ++ extra)) =
      Except.ok r2) :
    summaryGet "mu_drastic" r1.summary = summaryGet "mu_drastic" r2.summary ∧
    summaryGet "mu_violated_constraints" r1.summary =
      summaryGet "mu_violated_constraints" r2.summary := by
  have hn1 : (["mu_drastic", "mu_violated_constraints"] : List String).any
      (fun m => m ∈ fastNames) = true := by decide
  have hn2 : ((["mu_drastic", "mu_violated_constraints"] ++ extra) : List String).any
      (fun m => m ∈ fastNames) = true := by
    simp only [List.any_append, Bool.or_eq_true]
    exact Or.inl hn1
  cases hp : phase1 g true cs with
  | error e =>
    simp only [compute_measures, Option.getD, bind, Except.bind, hn1, hp] at h1
    exact Except.noConfusion h1
  | ok p =>
    have hall1 : (["mu_drastic", "mu_violated_constraints"] : List String).all
        (fun m => m ∈ fastNames) = true := by decide
    have hn2c : (("mu_drastic" :: "mu_violated_constraints" :: extra : List String)).any
        (fun m => m ∈ fastNames) = true := hn2
    have hm1 : ("mu_drastic" : String) ∈
        ("mu_drastic" :: "mu_violated_constraints" :: extra : List String) := by simp
    have hm2 : ("mu_violated_constraints" : String) ∈
        ("mu_drastic" :: "mu_violated_constraints" :: extra : List String) := by simp
    simp only [compute_measures, Option.getD, bind, Except.bind, hn1, hn2c, hp, hall1,
      if_true, if_pos (show ("mu_drastic" : String) ∈
        (["mu_drastic", "mu_violated_constraints"] : List String) by decide),
      if_pos (show ("mu_violated_constraints" : String) ∈
        (["mu_drastic", "mu_violated_constraints"] : List String) by decide),
      if_neg (show ¬ ("problematic_pairs" : String) ∈
        (["mu_drastic", "mu_violated_constraints"] : List String) by decide),
      if_pos hm1, if_pos hm2,
      pure, Except.pure, Except.ok.injEq, List.append_assoc, List.cons_append,
      List.singleton_append, List.nil_append, List.append_nil] at h1 h2
    subst h1
    by_cases hall2 : (("mu_drastic" :: "mu_violated_constraints" :: extra : List String)).all
        (fun m => m ∈ fastNames) = true
    · rw [if_pos hall2] at h2
      simp only [Except.ok.injEq] at h2
      subst h2
      constructor
      · rw [summaryGet_cons_self, summaryGet_cons_self]
      · rw [summaryGet_cons_ne (by decide), summaryGet_cons_self,
          summaryGet_cons_ne (by decide), summaryGet_cons_self]
    · rw [if_neg hall2] at h2
      simp only [Except.ok.injEq] at h2
      subst h2
      constructor
      · rw [summaryGet_cons_self, summaryGet_cons_self]
      · rw [summaryGet_cons_ne (by decide), summaryGet_cons_self,
          summaryGet_cons_ne (by decide), summaryGet_cons_self]

theorem fast_slow_agree_on_base_measures_witness :
    summaryGet "mu_drastic" [("mu_drastic", 1), ("mu_violated_constraints", 1)] =
      summaryGet "mu_drastic"
        [("mu_drastic", 1), ("mu_violated_constraints", 1), ("I_E_plus", 1)] ∧
    summaryGet "mu_violated_constraints"
        [("mu_drastic", 1), ("mu_violated_constraints", 1)] =
      summaryGet "mu_violated_constraints"
        [("mu_drastic", 1), ("mu_violated_constraints", 1), ("I_E_plus", 1)] :=
  fast_slow_agree_on_base_measures ⟨{1, 2}, {(1, "a", 2)}⟩ ["x: a ⊆ b"] ["I_E_plus"]
    ⟨[("mu_drastic", 1), ("mu_violated_constraints", 1)],
     [.fastChecked "x" false 1], [(1, 2)], [], []⟩
    ⟨[("mu_drastic", 1), ("mu_violated_constraints", 1), ("I_E_plus", 1)],
     [.fastChecked "x" false 1], [(1, 2)], [], []⟩
    (by decide) (by decide)

/-! ## Witness extraction -/

theorem pairs_for_alts_eq_seqsUnion (g : Graph) (alts : List (List Atom)) :
    pairs_for_alts g alts = seqsUnion g alts := by
  unfold pairs_for_alts
  rw [foldl_union_pairs, Finset.empty_union]

theorem mem_pairs_for_alts {g : Graph} {alts : List (List Atom)} {p : Nat × Nat} :
    p ∈ pairs_for_alts g alts ↔ ∃ seq ∈ alts, p ∈ pairs_for_sequence g seq := by
  rw [pairs_for_alts_eq_seqsUnion]
  unfold seqsUnion
  simp

theorem mem_stepJoin {g : Graph} {R : Finset (Nat × Nat)} {a : Atom} {u y : Nat} :
    (u, y) ∈ stepJoin g R a ↔ ∃ x, (u, x) ∈ R ∧ (x, y) ∈ labelEdges g a.2 := by
  unfold stepJoin
  simp only [Finset.mem_biUnion, Finset.mem_image, Finset.mem_filter, Prod.mk.injEq]
  constructor
  · rintro ⟨p, hp, e, ⟨he, hex⟩, hu, hy⟩
    refine ⟨p.2, ?_, ?_⟩
    · rwa [← hu, Prod.mk.eta]
    · rw [← hex, ← hy, Prod.mk.eta]
      exact he
  · rintro ⟨x, hux, hxy⟩
    exact ⟨(u, x), hux, (x, y), ⟨hxy, rfl⟩, rfl, rfl⟩

theorem mem_foldl_stepJoin (g : Graph) (seq : List Atom) (R : Finset (Nat × Nat))
    (u v : Nat) :
    (u, v) ∈ seq.foldl (stepJoin g) R ↔
      ∃ x, (u, x) ∈ R ∧ chainPath g x (seq.map (fun a => a.2)) v := by
  induction seq generalizing R with
  | nil => simp [chainPath]
  | cons a rest ih =>
    simp only [List.foldl_cons, ih, List.map_cons, chainPath]
    constructor
    · rintro ⟨x, hx, hch⟩
      rcases mem_stepJoin.mp hx with ⟨z, hz, he⟩
      exact ⟨z, hz, x, he, hch⟩
    · rintro ⟨z, hz, x, he, hch⟩
      exact ⟨x, mem_stepJoin.mpr ⟨z, hz, he⟩, hch⟩

theorem mem_pairs_for_sequence_iff_chain {g : Graph} {seq : List Atom} {u v : Nat}
    (hinv : seq.any (fun a => a.1) = false) (hne : seq ≠ []) :
    (u, v) ∈ pairs_for_sequence g seq ↔ chainPath g u (seq.map (fun a => a.2)) v := by
  cases seq with
  | nil => exact absurd rfl hne
  | cons a rest =>
    have ha : a.1 = false := by
      simp only [List.any_cons, Bool.or_eq_false_iff] at hinv
      exact hinv.1
    simp only [pairs_for_sequence, firstStep, ha, if_false, Bool.false_eq_true]
    rw [mem_foldl_stepJoin]
    simp only [List.map_cons, chainPath]

theorem mem_nbrs {g : Graph} {rel : String} {x y : Nat} :
    y ∈ nbrs g rel x ↔ (x, y) ∈ labelEdges g rel := by
  unfold nbrs
  rw [mem_sortedNats]
  simp only [Finset.mem_image, Finset.mem_filter]
  constructor
  · rintro ⟨e, ⟨he, hx⟩, hy⟩
    rw [← hx, ← hy] at *
    rwa [Prod.mk.eta]
  · intro h
    exact ⟨(x, y), ⟨h, rfl⟩, rfl⟩

theorem pathsFrom_head (g : Graph) (seq : List Atom) (x : Nat) :
    ∀ ns ∈ pathsFrom g seq x, ∃ t, ns = x :: t := by
  cases seq with
  | nil =>
    intro ns hns
    simp only [pathsFrom, List.mem_singleton] at hns
    exact ⟨[], hns⟩
  | cons a rest =>
    intro ns hns
    simp only [pathsFrom, List.mem_flatMap, List.mem_map] at hns
    rcases hns with ⟨y, _, l, _, rfl⟩
    exact ⟨l, rfl⟩

theorem exists_path_iff_chain (g : Graph) (seq : List Atom) (u v : Nat) :
    (∃ ns ∈ pathsFrom g seq u, ns.getLast? = some v) ↔
      chainPath g u (seq.map (fun a => a.2)) v := by
  induction seq generalizing u with
  | nil =>
    simp [pathsFrom, chainPath]
  | cons a rest ih =>
    simp only [pathsFrom, List.mem_flatMap, List.mem_map, List.map_cons, chainPath]
    constructor
    · rintro ⟨ns, ⟨y, hy, l, hl, rfl⟩, hlast⟩
      rcases pathsFrom_head g rest y l hl with ⟨t, rfl⟩
      rw [List.getLast?_cons_cons] at hlast
      exact ⟨y, mem_nbrs.mp hy, (ih y).mp ⟨y :: t, hl, hlast⟩⟩
    · rintro ⟨y, hy, hch⟩
      rcases (ih y).mpr hch with ⟨ns, hns, hlast⟩
      rcases pathsFrom_head g rest y ns hns with ⟨t, rfl⟩
      exact ⟨u :: y :: t, ⟨y, mem_nbrs.mpr hy, y :: t, hns, rfl⟩,
        by rwa [List.getLast?_cons_cons]⟩

theorem one_witness_ne_nil_imp {g : Graph} {seq : List Atom} {u v : Nat}
    (h : one_witness_path_for_sequence g seq u v ≠ []) :
    seq.any (fun a => a.1) = false ∧ seq ≠ [] ∧
      chainPath g u (seq.map (fun a => a.2)) v := by
  unfold one_witness_path_for_sequence at h
  split_ifs at h with hinv
  · exact absurd rfl h
  · refine ⟨by simpa using hinv, ?_, ?_⟩
    · intro hseq
      subst hseq
      rcases hh : ((pathsFrom g ([] : List Atom) u).filter
          (fun ns => ns.getLast? = some v)).head? with _ | ns <;>
        simp [hh] at h
    · rcases hh : ((pathsFrom g seq u).filter
          (fun ns => ns.getLast? = some v)).head? with _ | ns
      · rw [hh] at h
        exact absurd rfl h
      · have hmem : ns ∈ (pathsFrom g seq u).filter (fun ns => ns.getLast? = some v) :=
          List.mem_of_mem_head? hh
        rw [List.mem_filter] at hmem
        exact (exists_path_iff_chain g seq u v).mp
          ⟨ns, hmem.1, by simpa using hmem.2⟩

theorem firstWitness_append (g : Graph) (l1 l2 : List (List Atom)) (u v : Nat) :
    firstWitness g (l1 ++ l2) u v =
      (firstWitness g l1 u v).orElse (fun _ => firstWitness g l2 u v) := by
  unfold firstWitness
  induction l1 with
  | nil => simp
  | cons seq rest ih =>
    by_cases hw : one_witness_path_for_sequence g seq u v ≠ []
    · simp only [List.cons_append, List.findSome?_cons, if_pos hw, Option.orElse]
    · simp only [List.cons_append, List.findSome?_cons, if_neg hw]
      exact ih

/-- C4: during the witness extraction of `compute_measures`, for each
violating pair the kept witness path is the first non-empty
`witness_path(s, u, v)` over the LHS sequences of the constraints that
produced the pair, in the order those sequences appear — the remaining LHS
sequences the loop visits cannot yield a witness for the pair — and each
pair contributes at most one witness path globally. -/
theorem witness_extraction_per_producing_constraint (g : Graph)
    (cons : List ParsedRpc) (u v : Nat)
    (h : ∀ c ∈ cons, (u, v) ∉ pairs_for_alts g c.2.2) :
    firstWitness g (cons.flatMap (fun c => c.2.1)) u v =
      firstWitness g (producingLhs g cons u v) u v ∧
    (∀ ps : List (Nat × Nat),
      (collectWitnessPaths g (cons.flatMap (fun c => c.2.1)) ps).length ≤ ps.length) := by
  constructor
  · induction cons with
    | nil => rfl
    | cons c rest ih =>
      have htail := ih fun d hd => h d (List.mem_cons_of_mem c hd)
      by_cases hprod : (u, v) ∈ pairs_for_alts g c.2.1
      · have hp : Produces g c u v := ⟨hprod, h c (by simp)⟩
        unfold producingLhs
        rw [List.filter_cons, if_pos (by simpa using hp), List.flatMap_cons,
          List.flatMap_cons, firstWitness_append, firstWitness_append]
        unfold producingLhs at htail
        rw [htail]
      · have hnone : firstWitness g c.2.1 u v = none := by
          unfold firstWitness
          rw [List.findSome?_eq_none_iff]
          intro seq hseq
          by_cases hw : one_witness_path_for_sequence g seq u v ≠ []
          · exfalso
            obtain ⟨hinv, hne, hch⟩ := one_witness_ne_nil_imp hw
            exact hprod (mem_pairs_for_alts.mpr
              ⟨seq, hseq, (mem_pairs_for_sequence_iff_chain hinv hne).mpr hch⟩)
          · exact if_neg hw
        have hnp : ¬ Produces g c u v := fun hp => hprod hp.1
        unfold producingLhs
        rw [List.filter_cons, if_neg (by simpa using hnp), List.flatMap_cons,
          firstWitness_append, hnone]
        unfold producingLhs at htail
        rw [← htail]
        rfl
  · intro ps
    exact List.length_filterMap_le _ _

theorem witness_extraction_per_producing_constraint_witness :
    (firstWitness ⟨{1, 2}, {(1, "a", 2)}⟩
        (([("x", [[(false, "a")]], [[(false, "b")]])] : List ParsedRpc).flatMap
          (fun c => c.2.1)) 1 2 =
      firstWitness ⟨{1, 2}, {(1, "a", 2)}⟩
        (producingLhs ⟨{1, 2}, {(1, "a", 2)}⟩
          [("x", [[(false, "a")]], [[(false, "b")]])] 1 2) 1 2) ∧
    (∀ ps : List (Nat × Nat),
      (collectWitnessPaths ⟨{1, 2}, {(1, "a", 2)}⟩
          (([("x", [[(false, "a")]], [[(false, "b")]])] : List ParsedRpc).flatMap
            (fun c => c.2.1)) ps).length ≤ ps.length) :=
  witness_extraction_per_producing_constraint ⟨{1, 2}, {(1, "a", 2)}⟩
    [("x", [[(false, "a")]], [[(false, "b")]])] 1 2 (by decide)

end RpcSpec
